import Mathlib

/-!
Verification of the `SimpleCrawler` core of `src/web_crawler.py`.

The crawl loop (`SimpleCrawler.crawl`, lines 84-141) is embedded as a state
machine over `EngineState`.  The network fetch together with the extraction
pipeline of a single page is treated as an injected collaborator
(`Behaviour`), exactly as the specification prescribes ("treating fetch and
parse as injected capabilities"): for a given attempt index and URL it either
fails at fetch time (`requests.RequestException`, including the non-2xx
statuses turned into exceptions by `raise_for_status`), fails during
extraction (any other exception inside the `try` block after the successful
fetch), or succeeds with extracted text, links and title.

The HTML-level helpers (`is_valid_url`, `get_links`, `extract_text` and the
title expression of the page record) are embedded over a document tree model
(`Node`), the parsed form produced by the external HTML-parsing collaborator
(BeautifulSoup), and are composed with the engine via `behOf`.

Python strings are modelled as Lean `String`s; the pure text-cleanup code of
`extract_text` (lines 78-80) is modelled over `List Char` so that it can be
reasoned about by structural induction.  `str.splitlines` is modelled for
texts whose line terminators are `'\n'`, and `str.strip` strips the ASCII
whitespace characters; both agree with Python on every input appearing in
this development.
-/

/-- One entry of `pages_data` (source lines 118-123).  `title` is an
`Option String`: `BeautifulSoup(html).title.string` is Python `None`
(modelled as `none`) when the title tag does not contain exactly one string,
and the literal sentinel `"No title"` is used when no title tag exists. -/
structure PageRecord where
  url : String
  title : Option String
  text_length : Nat
  links_found : Nat
deriving DecidableEq, Repr

/-- Instrumentation of one loop iteration: either the dequeued URL was
already visited and discarded (lines 95-96), or a fetch was attempted;
`delayed` records whether `time.sleep(self.delay)` ran before the fetch,
i.e. whether `self.visited` was non-empty at line 102. -/
inductive Event where
  | skip (url : String)
  | attempt (url : String) (delayed : Bool)
deriving DecidableEq, Repr

/-- Outcome of the injected fetch-and-extract collaborator for one URL:
`fetchFail` models `requests.RequestException` raised by `requests.get` or
`raise_for_status` (network error, timeout, non-2xx status; lines 106-107,
caught at 132); `extractFail` models any other exception raised after the
successful fetch, i.e. during lines 113-128 (caught at line 134); `success`
carries the extracted text, the link list returned by `get_links`, and the
title value of the page record. -/
inductive FetchResult where
  | fetchFail
  | extractFail
  | success (text : String) (links : List String) (title : Option String)
deriving DecidableEq

/-- The injected fetcher/extractor: attempt index and URL to outcome.  The
attempt index lets a single `Behaviour` encode any sequence of successes and
failures over the run. -/
def Behaviour : Type := Nat → String → FetchResult

/-- Mutable state of `SimpleCrawler.crawl`: `visited` models the Python set
`self.visited` (duplicate-free by construction: insertion only happens for a
freshly dequeued URL that just failed the membership test of line 95),
`toVisit` the deque `self.to_visit`, `pages` the accumulator `pages_data`.
`trace` and `tick` are pure instrumentation: the sequence of observable
events and the attempt counter feeding the injected `Behaviour`. -/
structure EngineState where
  visited : List String
  toVisit : List String
  pages : List PageRecord
  trace : List Event
  tick : Nat
deriving DecidableEq, Repr

/-- Lines 126-128: `for link in links: if link not in self.visited and link
not in self.to_visit: self.to_visit.append(link)`.  The membership check is
against the deque as it grows during this very loop. -/
def enqueueLinks (visited : List String) (q : List String) (links : List String) : List String :=
  links.foldl (fun q l => if l ∉ visited ∧ l ∉ q then q ++ [l] else q) q

/-- One iteration of the `while` body for a dequeued URL `u` (lines 92-135),
given that the deque was `u :: rest`.  The already-visited check (line 95)
precedes the `try` block; on `fetchFail` nothing but the dequeue happened
(the exception fires before line 110); on `extractFail` the URL HAS already
been inserted into `visited`, because line 110 precedes the extraction code
of lines 113-128; on success the page record is appended and the links are
enqueued against the already-updated visited set. -/
def crawlIter (beh : Behaviour) (s : EngineState) (u : String) (rest : List String) :
    EngineState :=
  if u ∈ s.visited then
    { s with toVisit := rest, trace := s.trace ++ [Event.skip u] }
  else
    match beh s.tick u with
    | .fetchFail =>
      { s with toVisit := rest,
               trace := s.trace ++ [Event.attempt u (!s.visited.isEmpty)],
               tick := s.tick + 1 }
    | .extractFail =>
      { s with visited := u :: s.visited, toVisit := rest,
               trace := s.trace ++ [Event.attempt u (!s.visited.isEmpty)],
               tick := s.tick + 1 }
    | .success text links title =>
      { visited := u :: s.visited,
        toVisit := enqueueLinks (u :: s.visited) rest links,
        pages := s.pages ++ [{ url := u, title := title,
                               text_length := text.length, links_found := links.length }],
        trace := s.trace ++ [Event.attempt u (!s.visited.isEmpty)],
        tick := s.tick + 1 }

/-- The `while self.to_visit and len(self.visited) < self.max_pages` loop
(line 91), returning the final state. -/
def crawlLoop (beh : Behaviour) (mp : Nat) (s : EngineState) : EngineState :=
  match h : s.toVisit with
  | [] => s
  | u :: rest =>
    if hlt : s.visited.length < mp then
      crawlLoop beh mp (crawlIter beh s u rest)
    else s
termination_by (mp - s.visited.length, s.toVisit.length)
decreasing_by
  have hm : ((crawlIter beh s u rest).visited = s.visited ∧
      (crawlIter beh s u rest).toVisit = rest) ∨
      (crawlIter beh s u rest).visited.length = s.visited.length + 1 := by
    unfold crawlIter
    split
    · exact Or.inl ⟨rfl, rfl⟩
    · split
      · exact Or.inl ⟨rfl, rfl⟩
      · exact Or.inr (by simp)
      · exact Or.inr (by simp)
  rcases hm with ⟨hv, hq⟩ | hv
  · rw [hv, hq, h]
    exact Prod.Lex.right _ (by simp)
  · rw [hv]
    exact Prod.Lex.left _ _ (by omega)

/-- The sequence of states observed at the head of the `while` loop,
including the final one. -/
def crawlStates (beh : Behaviour) (mp : Nat) (s : EngineState) : List EngineState :=
  s ::
    (match h : s.toVisit with
     | [] => []
     | u :: rest =>
       if hlt : s.visited.length < mp then
         crawlStates beh mp (crawlIter beh s u rest)
       else [])
termination_by (mp - s.visited.length, s.toVisit.length)
decreasing_by
  have hm : ((crawlIter beh s u rest).visited = s.visited ∧
      (crawlIter beh s u rest).toVisit = rest) ∨
      (crawlIter beh s u rest).visited.length = s.visited.length + 1 := by
    unfold crawlIter
    split
    · exact Or.inl ⟨rfl, rfl⟩
    · split
      · exact Or.inl ⟨rfl, rfl⟩
      · exact Or.inr (by simp)
      · exact Or.inr (by simp)
  rcases hm with ⟨hv, hq⟩ | hv
  · rw [hv, hq, h]
    exact Prod.Lex.right _ (by simp)
  · rw [hv]
    exact Prod.Lex.left _ _ (by omega)

/-- Fuel-indexed variant of the loop, structurally recursive in the fuel:
`none` means the fuel ran out before the stopping condition was reached.
Used to state termination of the loop as a theorem. -/
def crawlFuel (beh : Behaviour) (mp : Nat) : Nat → EngineState → Option EngineState
  | fuel, s =>
    match s.toVisit with
    | [] => some s
    | u :: rest =>
      if s.visited.length < mp then
        match fuel with
        | 0 => none
        | n + 1 => crawlFuel beh mp n (crawlIter beh s u rest)
      else some s

/-- `SimpleCrawler.__init__` (lines 31-41): `self.visited = set()`,
`self.to_visit = deque([start_url])`.  Note that the start URL is enqueued
unconditionally, whatever its shape. -/
def initState (start : String) : EngineState :=
  { visited := [], toVisit := [start], pages := [], trace := [], tick := 0 }

/-- A full run of `SimpleCrawler.crawl` from a fresh engine. -/
def crawl (beh : Behaviour) (mp : Nat) (start : String) : EngineState :=
  crawlLoop beh mp (initState start)

/-- The URLs of the fetch attempts recorded in a trace, in order. -/
def attemptsOf (tr : List Event) : List String :=
  tr.filterMap fun e =>
    match e with
    | .attempt u _ => some u
    | .skip _ => none

/-- The delay flags of the fetch attempts recorded in a trace, in order. -/
def attemptFlags (tr : List Event) : List Bool :=
  tr.filterMap fun e =>
    match e with
    | .attempt _ d => some d
    | .skip _ => none

/- ## URL classifier (`urllib.parse` subset and `is_valid_url`) -/

/-- Result of `urlparse`, restricted to the components the crawler reads. -/
structure PUrl where
  scheme : String
  netloc : String
  path : String
deriving DecidableEq, Repr

/-- Split a character list at the first occurrence of `"://"`, returning the
part before and the part after, or `none` when absent. -/
def findSchemeSep : List Char → Option (List Char × List Char)
  | ':' :: '/' :: '/' :: rest => some ([], rest)
  | c :: rest =>
    match findSchemeSep rest with
    | some (a, b) => some (c :: a, b)
    | none => none
  | [] => none

/-- Split a character list at the first occurrence of the character `t`:
the part before, and (when found) the part after. -/
def breakChar (t : Char) : List Char → List Char × Option (List Char)
  | [] => ([], none)
  | c :: rest =>
    if c = t then ([], some rest)
    else
      match breakChar t rest with
      | (a, b) => (c :: a, b)

/-- `urllib.parse.urlparse`, modelled for the URL shapes the crawler works
with: `scheme://host/path...` parses into its three components, and a string
without `"://"` parses with empty scheme and netloc (as Python does for
relative references).  Query/fragment splitting is not modelled; such
characters stay in `path`. -/
def urlparse (u : String) : PUrl :=
  match findSchemeSep u.data with
  | none => { scheme := "", netloc := "", path := u }
  | some (sch, rest) =>
    match breakChar '/' rest with
    | (host, none) => { scheme := String.mk sch, netloc := String.mk host, path := "" }
    | (host, some p) =>
      { scheme := String.mk sch, netloc := String.mk host, path := String.mk ('/' :: p) }

/-- `SimpleCrawler.is_valid_url` (lines 43-50): non-empty netloc, non-empty
scheme, and netloc equal to the crawl domain. -/
def is_valid_url (domain url : String) : Bool :=
  let parsed := urlparse url
  !(parsed.netloc == "") && !(parsed.scheme == "") && (parsed.netloc == domain)

/-- The longest prefix of a path ending at its last `'/'`, or `none` when the
path has no slash.  Helper for relative-reference resolution. -/
def dirChars : List Char → Option (List Char)
  | [] => none
  | c :: rest =>
    match dirChars rest with
    | some d => some (c :: d)
    | none => if c = '/' then some [c] else none

/-- `urllib.parse.urljoin`, modelled for the reference forms exercised here:
absolute references (containing `"://"`) replace the base; network-relative
(`//...`) keep the base scheme; absolute-path (`/...`) keep scheme and host;
other non-empty references replace the last path segment.  Dot segments,
queries and fragments are not modelled. -/
def urljoin (base url : String) : String :=
  if url = "" then base
  else if (findSchemeSep url.data).isSome then url
  else
    let b := urlparse base
    match url.data with
    | '/' :: '/' :: _ => b.scheme ++ ":" ++ url
    | '/' :: _ => b.scheme ++ "://" ++ b.netloc ++ url
    | _ =>
      b.scheme ++ "://" ++ b.netloc ++
        (match dirChars b.path.data with
         | some d => String.mk d
         | none => "/") ++ url

/- ## Parsed HTML documents and the BeautifulSoup operations the source uses -/

/-- A parsed HTML node: a text node (`NavigableString`) or an element with a
tag name, attributes, and children.  A document is a `List Node`. -/
inductive Node where
  | text : String → Node
  | elem : String → List (String × String) → List Node → Node

mutual
/-- `soup(['script', 'style']): script.decompose()` (lines 72-73): remove
every `script`/`style` element together with its whole subtree. -/
def stripNode : Node → Option Node
  | .text s => some (.text s)
  | .elem t a cs =>
    if t == "script" || t == "style" then none else some (.elem t a (stripList cs))
def stripList : List Node → List Node
  | [] => []
  | n :: ns =>
    match stripNode n with
    | none => stripList ns
    | some m => m :: stripList ns
end

mutual
/-- `soup.get_text()` (line 76): concatenation of all text nodes, in
document order, with no separator. -/
def textNode : Node → String
  | .text s => s
  | .elem _ _ cs => textList cs
def textList : List Node → String
  | [] => ""
  | n :: ns => textNode n ++ textList ns
end

mutual
/-- The `href` values of `soup.find_all('a', href=True)` (line 57), in
document (pre-order) order. -/
def hrefsNode : Node → List String
  | .text _ => []
  | .elem t attrs cs =>
    (if t == "a" then
       match attrs.lookup "href" with
       | some h => [h]
       | none => []
     else []) ++ hrefsList cs
def hrefsList : List Node → List String
  | [] => []
  | n :: ns => hrefsNode n ++ hrefsList ns
end

mutual
/-- `soup.title`: the first `title` element of the document in pre-order,
or `none`. -/
def findTitleNode : Node → Option Node
  | .text _ => none
  | .elem t a cs => if t == "title" then some (.elem t a cs) else findTitleList cs
def findTitleList : List Node → Option Node
  | [] => none
  | n :: ns =>
    match findTitleNode n with
    | some r => some r
    | none => findTitleList ns
end

mutual
/-- Whether a `title` element occurs anywhere in the tree. -/
def hasTitleNode : Node → Bool
  | .text _ => false
  | .elem t _ cs => t == "title" || hasTitleList cs
def hasTitleList : List Node → Bool
  | [] => false
  | n :: ns => hasTitleNode n || hasTitleList ns
end

mutual
/-- BeautifulSoup `.string`: a text node is its own string; a tag with
exactly one child has its child's `.string`; any other tag has `None`. -/
def nodeString : Node → Option String
  | .text s => some s
  | .elem _ _ cs => childString cs
def childString : List Node → Option String
  | [c] => nodeString c
  | _ => none
end

/-- The title expression of the page record (line 120):
`soup.title.string if soup.title else 'No title'`.  `none` models the Python
value `None`. -/
def titleOf (d : List Node) : Option String :=
  match findTitleList d with
  | some t => nodeString t
  | none => some "No title"

mutual
/-- Replace the contents of every `script`/`style` element by nothing,
keeping the element itself.  Two documents with the same erasure differ only
in script/style content. -/
def eraseNode : Node → Node
  | .text s => .text s
  | .elem t a cs =>
    if t == "script" || t == "style" then .elem t a [] else .elem t a (eraseList cs)
def eraseList : List Node → List Node
  | [] => []
  | n :: ns => eraseNode n :: eraseList ns
end

/- ## The text-cleanup pipeline of `extract_text` (lines 78-80) -/

/-- Python whitespace characters (ASCII range), as stripped by `str.strip`. -/
def pyWS (c : Char) : Bool :=
  c = ' ' || c = '\t' || c = '\n' || c = '\r' || c = '\x0b' || c = '\x0c'

/-- `str.strip()`: drop whitespace from both ends. -/
def pyStrip (l : List Char) : List Char :=
  ((l.dropWhile pyWS).reverse.dropWhile pyWS).reverse

/-- `str.splitlines()` for texts whose line terminators are `'\n'`: split at
every newline, where a trailing newline does not produce a final empty
line and the empty string has no lines. -/
def splitLF : List Char → List (List Char)
  | [] => []
  | c :: rest =>
    if c = '\n' then [] :: splitLF rest
    else
      match splitLF rest with
      | [] => [[c]]
      | h :: t => (c :: h) :: t

/-- `line.split("  ")`: split at each non-overlapping occurrence of two
consecutive spaces, scanning left to right. -/
def splitTwoSpace : List Char → List (List Char)
  | [] => [[]]
  | [c] => [[c]]
  | c1 :: c2 :: rest =>
    if c1 = ' ' ∧ c2 = ' ' then [] :: splitTwoSpace rest
    else
      match splitTwoSpace (c2 :: rest) with
      | [] => [[c1]]
      | h :: t => (c1 :: h) :: t

/-- `' '.join(...)`: concatenate with a single space between entries. -/
def joinSpace : List (List Char) → List Char
  | [] => []
  | [c] => c
  | c :: cs => c ++ ' ' :: joinSpace cs

/-- Concatenate with `'\n'` between entries (inverse of `splitLF`, up to a
trailing newline).  Proof-side helper. -/
def joinLF : List (List Char) → List Char
  | [] => []
  | [c] => c
  | c :: cs => c ++ '\n' :: joinLF cs

/-- No two consecutive spaces anywhere in the list.  Proof-side helper. -/
def noDS : List Char → Bool
  | [] => true
  | [_] => true
  | c1 :: c2 :: rest => if c1 = ' ' ∧ c2 = ' ' then false else noDS (c2 :: rest)

/-- Concatenate with two spaces between entries (inverse of
`splitTwoSpace`).  Proof-side helper. -/
def joinTS : List (List Char) → List Char
  | [] => []
  | [c] => c
  | c :: cs => c ++ ' ' :: ' ' :: joinTS cs

/-- Lines 78-80 of the source:
`lines = (line.strip() for line in text.splitlines())`,
`chunks = (phrase.strip() for line in lines for phrase in line.split("  "))`,
`text = ' '.join(chunk for chunk in chunks if chunk)`. -/
def pyCleanup (t : List Char) : List Char :=
  let lines := (splitLF t).map pyStrip
  let chunks := lines.flatMap fun line => (splitTwoSpace line).map pyStrip
  joinSpace (chunks.filter fun c => !c.isEmpty)

/-- `SimpleCrawler.extract_text` (lines 67-82): drop script/style subtrees,
take the document text, and run the whitespace cleanup. -/
def extract_text (d : List Node) : String :=
  String.mk (pyCleanup (textList (stripList d)).data)

/-- `SimpleCrawler.get_links` (lines 52-65): resolve each href against the
page URL and keep those passing `is_valid_url`, in document order. -/
def get_links (domain url : String) (d : List Node) : List String :=
  (hrefsList d).filterMap fun href =>
    let absolute_url := urljoin url href
    if is_valid_url domain absolute_url then some absolute_url else none

/- ## Spec-side definitions (for refinement comparisons only) -/

/-- Split at every whitespace character.  Spec-side helper used to phrase
"collapses runs of whitespace": a run of k whitespace characters produces
k - 1 empty pieces between the adjacent tokens. -/
def splitWS : List Char → List (List Char)
  | [] => [[]]
  | c :: rest =>
    if pyWS c then [] :: splitWS rest
    else
      match splitWS rest with
      | [] => [[c]]
      | h :: t => (c :: h) :: t

/-- The whitespace-delimited tokens of a text.  Spec-side helper. -/
def wordsWS (t : List Char) : List (List Char) :=
  (splitWS t).filter fun w => !w.isEmpty

/-- Written from the spec's words, for comparison with `pyCleanup`:
"collapses runs of whitespace (including multiple consecutive spaces and
blank lines) into single separators, trims each resulting token, joins
non-empty tokens with a single space". -/
def specCollapse (t : List Char) : List Char :=
  joinSpace (wordsWS t)

/- ## Composition of the engine with the concrete extractor -/

/-- The fetch collaborator at the level of parsed documents: `none` is a
fetch failure, `some d` a successful fetch of document `d`. -/
def DocFetch : Type := Nat → String → Option (List Node)

/-- The behaviour of the real crawler given a document-level fetcher: on a
successful fetch, extraction runs `extract_text`, `get_links` and the title
expression of lines 113-123. -/
def behOf (docFetch : DocFetch) (domain : String) : Behaviour :=
  fun n u =>
    match docFetch n u with
    | none => .fetchFail
    | some d => .success (extract_text d) (get_links domain u d) (titleOf d)

/-- A full run of the crawler composed with the concrete extractor; the
domain is `urlparse(start_url).netloc` as in line 36. -/
def crawlSite (docFetch : DocFetch) (mp : Nat) (start : String) : EngineState :=
  crawl (behOf docFetch (urlparse start).netloc) mp start

/- ## Concrete scenario data -/

/-- A fetcher that always fails at fetch time. -/
def behFF : Behaviour := fun _ _ => .fetchFail

/-- A fetcher whose fetch succeeds but whose extraction always raises. -/
def behEF : Behaviour := fun _ _ => .extractFail

/-- The breadth-first scenario: the start page links to A and B (in that
order), A links to C, and B and C link to nothing. -/
def beh4 : Behaviour := fun _ u =>
  if u == "start" then .success "" ["A", "B"] none
  else if u == "A" then .success "" ["C"] none
  else .success "" [] none

/-- A document with two identical in-scope anchors. -/
def docDupLinks : List Node :=
  [.elem "a" [("href", "http://h/x")] [], .elem "a" [("href", "http://h/x")] []]

/-- A document whose title element is present but empty. -/
def docEmptyTitle : List Node :=
  [.elem "html" [] [.elem "head" [] [.elem "title" [] []]]]

/-- A document-level fetcher always returning the empty-title document. -/
def fetchEmptyTitle : DocFetch := fun _ _ => some docEmptyTitle

/-- A document whose visible text contains a tab between two words. -/
def docTab : List Node := [.text "a \t b"]

/-- A document mixing a script element, a run of spaces and a blank line. -/
def docMix : List Node :=
  [.elem "p" [] [.text "Hello   world"], .elem "script" [] [.text "var x = 1;"],
   .text "\n\nbye"]

/-- A document with an ordinary one-string title. -/
def docTitled : List Node := [.elem "head" [] [.elem "title" [] [.text "T"]]]

/-- A document whose title's only child is a tag wrapping the text: the
BeautifulSoup `.string` rule recurses through the single tag child. -/
def docNestedTitle : List Node := [.elem "title" [] [.elem "b" [] [.text "T"]]]

/-- A document whose title has two children (a string and a tag): the
BeautifulSoup `.string` rule yields `None` for it. -/
def docTwoChildTitle : List Node :=
  [.elem "title" [] [.text "A", .elem "b" [] [.text "B"]]]

/- ## Basic facts about one iteration and the loop -/

/-- Every iteration either leaves `visited` untouched and shortens the deque
to `rest`, or grows `visited` by exactly one element. -/
theorem crawlIter_cases (beh : Behaviour) (s : EngineState) (u : String) (rest : List String) :
    ((crawlIter beh s u rest).visited = s.visited ∧ (crawlIter beh s u rest).toVisit = rest) ∨
    (crawlIter beh s u rest).visited = u :: s.visited := by
  unfold crawlIter
  split
  · exact Or.inl ⟨rfl, rfl⟩
  · split
    · exact Or.inl ⟨rfl, rfl⟩
    · exact Or.inr rfl
    · exact Or.inr rfl

/-- An iteration grows the visited set by at most one element. -/
theorem crawlIter_visited_le (beh : Behaviour) (s : EngineState) (u : String)
    (rest : List String) :
    (crawlIter beh s u rest).visited.length ≤ s.visited.length + 1 := by
  rcases crawlIter_cases beh s u rest with ⟨hv, _⟩ | hv <;> rw [hv] <;> simp

/-- The loop stops on an empty deque. -/
theorem crawlLoop_nil (beh : Behaviour) (mp : Nat) (s : EngineState) (h : s.toVisit = []) :
    crawlLoop beh mp s = s := by
  unfold crawlLoop
  rw [h]

/-- The loop stops once the page budget is exhausted. -/
theorem crawlLoop_stop (beh : Behaviour) (mp : Nat) (s : EngineState)
    (h : ¬ s.visited.length < mp) : crawlLoop beh mp s = s := by
  unfold crawlLoop
  split
  · rfl
  · simp [h]

/-- While the guard holds, the loop performs one iteration and continues. -/
theorem crawlLoop_cons (beh : Behaviour) (mp : Nat) (s : EngineState) (u : String)
    (rest : List String) (h : s.toVisit = u :: rest) (hlt : s.visited.length < mp) :
    crawlLoop beh mp s = crawlLoop beh mp (crawlIter beh s u rest) := by
  conv_lhs => unfold crawlLoop
  rw [h]
  simp [hlt]

/-- The state list starts with the current state. -/
theorem self_mem_crawlStates (beh : Behaviour) (mp : Nat) (s : EngineState) :
    s ∈ crawlStates beh mp s := by
  unfold crawlStates
  exact List.mem_cons_self s _

/-- Unfolding `crawlStates` when the deque is empty. -/
theorem crawlStates_nil (beh : Behaviour) (mp : Nat) (s : EngineState) (h : s.toVisit = []) :
    crawlStates beh mp s = [s] := by
  unfold crawlStates
  rw [h]

/-- Unfolding `crawlStates` when the budget is exhausted. -/
theorem crawlStates_stop (beh : Behaviour) (mp : Nat) (s : EngineState)
    (h : ¬ s.visited.length < mp) : crawlStates beh mp s = [s] := by
  unfold crawlStates
  split
  · rfl
  · simp [h]

/-- Unfolding `crawlStates` while the guard holds. -/
theorem crawlStates_cons (beh : Behaviour) (mp : Nat) (s : EngineState) (u : String)
    (rest : List String) (h : s.toVisit = u :: rest) (hlt : s.visited.length < mp) :
    crawlStates beh mp s = s :: crawlStates beh mp (crawlIter beh s u rest) := by
  conv_lhs => unfold crawlStates
  rw [h]
  simp [hlt]

/-- The visited set never exceeds the budget at any loop head. -/
theorem crawlStates_visited_le (beh : Behaviour) (mp : Nat) :
    ∀ s : EngineState, s.visited.length ≤ mp →
      ∀ x ∈ crawlStates beh mp s, x.visited.length ≤ mp := by
  intro s
  induction s using crawlStates.induct beh mp with
  | case1 s ih =>
    intro hs x hx
    cases hq : s.toVisit with
    | nil =>
      rw [crawlStates_nil beh mp s hq] at hx
      rw [List.mem_singleton.mp hx]
      exact hs
    | cons u rest =>
      by_cases hlt : s.visited.length < mp
      · rw [crawlStates_cons beh mp s u rest hq hlt] at hx
        rcases List.mem_cons.mp hx with hx | hx
        · rw [hx]; exact hs
        · refine ih u rest hq hlt ?_ x hx
          calc (crawlIter beh s u rest).visited.length ≤ s.visited.length + 1 :=
                crawlIter_visited_le beh s u rest
            _ ≤ mp := hlt
      · rw [crawlStates_stop beh mp s hlt] at hx
        rw [List.mem_singleton.mp hx]
        exact hs

/-- The final visited set never exceeds the budget. -/
theorem crawlLoop_visited_le (beh : Behaviour) (mp : Nat) (s : EngineState)
    (hs : s.visited.length ≤ mp) : (crawlLoop beh mp s).visited.length ≤ mp := by
  induction s using crawlLoop.induct beh mp with
  | case1 s h => rw [crawlLoop_nil beh mp s h]; exact hs
  | case2 s u rest h hlt ih =>
    rw [crawlLoop_cons beh mp s u rest h hlt]
    refine ih ?_
    calc (crawlIter beh s u rest).visited.length ≤ s.visited.length + 1 :=
          crawlIter_visited_le beh s u rest
      _ ≤ mp := hlt
  | case3 s u rest h hlt =>
    rw [crawlLoop_stop beh mp s hlt]
    exact hs

/-- The loop exits exactly at the stopping condition: empty frontier or
exhausted budget. -/
theorem crawlLoop_stopCond (beh : Behaviour) (mp : Nat) (s : EngineState) :
    (crawlLoop beh mp s).toVisit = [] ∨ mp ≤ (crawlLoop beh mp s).visited.length := by
  induction s using crawlLoop.induct beh mp with
  | case1 s h => rw [crawlLoop_nil beh mp s h]; exact Or.inl h
  | case2 s u rest h hlt ih => rw [crawlLoop_cons beh mp s u rest h hlt]; exact ih
  | case3 s u rest h hlt =>
    rw [crawlLoop_stop beh mp s hlt]
    exact Or.inr (by omega)

/-- C1: for every run of the crawl loop — any injected fetch/extract
behaviour, any page budget, any start URL — the size of the visited set
never exceeds `maxPages` at any point of the run, the final size does not
exceed `maxPages`, and at loop exit it equals `maxPages` unless the frontier
was exhausted first; the loop terminates exactly when the visited count
reaches `maxPages` or the frontier is empty. -/
theorem c1_page_limit (beh : Behaviour) (mp : Nat) (start : String) :
    (∀ x ∈ crawlStates beh mp (initState start), x.visited.length ≤ mp) ∧
    (crawl beh mp start).visited.length ≤ mp ∧
    ((crawl beh mp start).toVisit = [] ∨ (crawl beh mp start).visited.length = mp) := by
  have h0 : (initState start).visited.length ≤ mp := by simp [initState]
  refine ⟨crawlStates_visited_le beh mp _ h0, crawlLoop_visited_le beh mp _ h0, ?_⟩
  rcases crawlLoop_stopCond beh mp (initState start) with h | h
  · exact Or.inl h
  · exact Or.inr (Nat.le_antisymm (crawlLoop_visited_le beh mp _ h0) h)

/-- For every state there is enough fuel for the fuel-indexed loop to reach
the fixed point of the recursive loop. -/
theorem crawlFuel_reaches (beh : Behaviour) (mp : Nat) (s : EngineState) :
    ∃ n, crawlFuel beh mp n s = some (crawlLoop beh mp s) := by
  induction s using crawlLoop.induct beh mp with
  | case1 s h =>
    refine ⟨0, ?_⟩
    unfold crawlFuel
    rw [h, crawlLoop_nil beh mp s h]
  | case2 s u rest h hlt ih =>
    obtain ⟨n, hn⟩ := ih
    refine ⟨n + 1, ?_⟩
    unfold crawlFuel
    rw [h]
    simp only [hlt, if_true]
    rw [hn, crawlLoop_cons beh mp s u rest h hlt]
  | case3 s u rest h hlt =>
    refine ⟨0, ?_⟩
    unfold crawlFuel
    rw [h]
    simp only [hlt, if_false]
    rw [crawlLoop_stop beh mp s hlt]

/-- C10: for every injected fetcher/extractor behaviour — any sequence of
successes, fetch failures, extraction failures and any link sets — no error
aborts the crawl and the loop always terminates: some finite fuel suffices
for the step-counted loop to finish, and the final state satisfies the
stopping condition (frontier exhausted or page limit reached). -/
theorem c10_always_terminates (beh : Behaviour) (mp : Nat) (start : String) :
    ∃ n, crawlFuel beh mp n (initState start) = some (crawl beh mp start) ∧
      ((crawl beh mp start).toVisit = [] ∨ mp ≤ (crawl beh mp start).visited.length) := by
  obtain ⟨n, hn⟩ := crawlFuel_reaches beh mp (initState start)
  exact ⟨n, hn, crawlLoop_stopCond beh mp (initState start)⟩

/- ## Fetch failures and extraction failures (single iteration) -/

/-- C2: for every dequeued URL whose fetch fails (network error, timeout, or
non-2xx HTTP status — all raising `requests.RequestException` before line
110), the iteration leaves the state unchanged except for the dequeue: the
URL is not inserted into the visited set, no page record is appended, no
links are enqueued (the deque becomes exactly the remaining entries), so the
failure does not count toward `maxPages`, and the loop continues with the
next frontier entry. -/
theorem c2_fetch_failure_skipped (beh : Behaviour) (mp : Nat) (s : EngineState)
    (u : String) (rest : List String) (hq : s.toVisit = u :: rest)
    (hu : u ∉ s.visited) (hf : beh s.tick u = FetchResult.fetchFail) :
    (crawlIter beh s u rest).visited = s.visited ∧
    (crawlIter beh s u rest).pages = s.pages ∧
    (crawlIter beh s u rest).toVisit = rest ∧
    (s.visited.length < mp →
      crawlLoop beh mp s = crawlLoop beh mp (crawlIter beh s u rest)) := by
  refine ⟨?_, ?_, ?_, fun hlt => crawlLoop_cons beh mp s u rest hq hlt⟩ <;>
    simp [crawlIter, hu, hf]

/-- Witness for C2 at a concrete input: a single-URL frontier whose fetch
fails. -/
theorem c2_witness :
    (initState "a").toVisit = "a" :: [] ∧ "a" ∉ (initState "a").visited ∧
    behFF (initState "a").tick "a" = FetchResult.fetchFail ∧
    ((crawlIter behFF (initState "a") "a" []).visited = (initState "a").visited ∧
     (crawlIter behFF (initState "a") "a" []).pages = (initState "a").pages ∧
     (crawlIter behFF (initState "a") "a" []).toVisit = [] ∧
     ((initState "a").visited.length < 1 →
       crawlLoop behFF 1 (initState "a") =
         crawlLoop behFF 1 (crawlIter behFF (initState "a") "a" []))) :=
  ⟨rfl, by decide, rfl,
   c2_fetch_failure_skipped behFF 1 (initState "a") "a" [] rfl (by decide) rfl⟩

/-- Counterexample to C3 as stated: with an extractor that always raises
after a successful fetch, crawling a single URL DOES insert it into the
visited set (the final visited set is `["u"]`, not `[]`), because
`self.visited.add(url)` at line 110 runs before the extraction code.  No
page record is produced and nothing is enqueued, as the claim says. -/
theorem c3_counterexample :
    crawl behEF 1 "u" =
      { visited := ["u"], toVisit := [], pages := [],
        trace := [Event.attempt "u" false], tick := 1 } := by
  have h1 : crawl behEF 1 "u" =
      crawlLoop behEF 1 (crawlIter behEF (initState "u") "u" []) :=
    crawlLoop_cons behEF 1 (initState "u") "u" [] rfl (by decide)
  have h2 : crawlIter behEF (initState "u") "u" [] =
      { visited := ["u"], toVisit := [], pages := [],
        trace := [Event.attempt "u" false], tick := 1 } := by decide
  rw [h1, h2, crawlLoop_nil behEF 1 _ rfl]

/-- C3 (amended): for every dequeued URL whose extraction raises after a
successful fetch, the error is recovered per page: no page record is
appended, none of its links are enqueued, and the loop continues with the
next frontier entry — but, unlike a fetch failure, the URL HAS already been
inserted into the visited set (line 110 precedes the extraction), so it does
count toward `maxPages` and will never be retried. -/
theorem c3_extract_failure_skipped (beh : Behaviour) (mp : Nat) (s : EngineState)
    (u : String) (rest : List String) (hq : s.toVisit = u :: rest)
    (hu : u ∉ s.visited) (hf : beh s.tick u = FetchResult.extractFail) :
    (crawlIter beh s u rest).visited = u :: s.visited ∧
    (crawlIter beh s u rest).pages = s.pages ∧
    (crawlIter beh s u rest).toVisit = rest ∧
    (s.visited.length < mp →
      crawlLoop beh mp s = crawlLoop beh mp (crawlIter beh s u rest)) := by
  refine ⟨?_, ?_, ?_, fun hlt => crawlLoop_cons beh mp s u rest hq hlt⟩ <;>
    simp [crawlIter, hu, hf]

/-- Witness for the amended C3 at a concrete input: a single-URL frontier
whose extraction raises. -/
theorem c3_witness :
    (initState "u").toVisit = "u" :: [] ∧ "u" ∉ (initState "u").visited ∧
    behEF (initState "u").tick "u" = FetchResult.extractFail ∧
    ((crawlIter behEF (initState "u") "u" []).visited = "u" :: (initState "u").visited ∧
     (crawlIter behEF (initState "u") "u" []).pages = (initState "u").pages ∧
     (crawlIter behEF (initState "u") "u" []).toVisit = [] ∧
     ((initState "u").visited.length < 1 →
       crawlLoop behEF 1 (initState "u") =
         crawlLoop behEF 1 (crawlIter behEF (initState "u") "u" []))) :=
  ⟨rfl, by decide, rfl,
   c3_extract_failure_skipped behEF 1 (initState "u") "u" [] rfl (by decide) rfl⟩

/- ## The pacing delay (C9) -/

/-- The trace of an iteration extends the old trace by a single event, which
is either a skip or a fetch attempt whose delay flag is the non-emptiness of
the visited set at the start of the iteration (line 102). -/
theorem crawlIter_trace_char (beh : Behaviour) (s : EngineState) (u : String)
    (rest : List String) :
    (crawlIter beh s u rest).trace = s.trace ++ [Event.skip u] ∨
    (crawlIter beh s u rest).trace = s.trace ++ [Event.attempt u (!s.visited.isEmpty)] := by
  unfold crawlIter
  split
  · exact Or.inl rfl
  · split
    · exact Or.inr rfl
    · exact Or.inr rfl
    · exact Or.inr rfl

/-- A fresh (unvisited) dequeued URL always produces a fetch attempt whose
delay flag is the visited-set non-emptiness test of line 102. -/
theorem crawlIter_trace_attempt (beh : Behaviour) (s : EngineState) (u : String)
    (rest : List String) (hu : u ∉ s.visited) :
    (crawlIter beh s u rest).trace = s.trace ++ [Event.attempt u (!s.visited.isEmpty)] := by
  unfold crawlIter
  rw [if_neg hu]
  split <;> rfl

/-- An iteration never empties a non-empty visited set. -/
theorem crawlIter_visited_ne (beh : Behaviour) (s : EngineState) (u : String)
    (rest : List String) (h : s.visited ≠ []) : (crawlIter beh s u rest).visited ≠ [] := by
  rcases crawlIter_cases beh s u rest with ⟨hv, _⟩ | hv <;> rw [hv]
  · exact h
  · exact List.cons_ne_nil u s.visited

/-- The loop only appends to the trace. -/
theorem crawlLoop_trace_ext (beh : Behaviour) (mp : Nat) :
    ∀ s : EngineState, ∃ ext, (crawlLoop beh mp s).trace = s.trace ++ ext := by
  intro s
  induction s using crawlLoop.induct beh mp with
  | case1 s h => exact ⟨[], by rw [crawlLoop_nil beh mp s h]; simp⟩
  | case2 s u rest h hlt ih =>
    obtain ⟨ext, hext⟩ := ih
    rw [crawlLoop_cons beh mp s u rest h hlt]
    rcases crawlIter_trace_char beh s u rest with hc | hc
    · exact ⟨Event.skip u :: ext, by rw [hext, hc]; simp⟩
    · exact ⟨Event.attempt u (!s.visited.isEmpty) :: ext, by rw [hext, hc]; simp⟩
  | case3 s u rest h hlt =>
    exact ⟨[], by rw [crawlLoop_stop beh mp s hlt]; simp⟩

/-- Once the visited set is non-empty, every later fetch attempt of the run
is delayed (line 102 fires on every subsequent iteration). -/
theorem crawlLoop_flags_true (beh : Behaviour) (mp : Nat) :
    ∀ s : EngineState, s.visited ≠ [] →
      ∀ b ∈ attemptFlags ((crawlLoop beh mp s).trace.drop s.trace.length), b = true := by
  intro s
  induction s using crawlLoop.induct beh mp with
  | case1 s h =>
    intro _ b hb
    rw [crawlLoop_nil beh mp s h, List.drop_length] at hb
    simp [attemptFlags] at hb
  | case2 s u rest h hlt ih =>
    intro hne b hb
    rw [crawlLoop_cons beh mp s u rest h hlt] at hb
    obtain ⟨ext, hext⟩ := crawlLoop_trace_ext beh mp (crawlIter beh s u rest)
    rcases crawlIter_trace_char beh s u rest with hc | hc
    · rw [hext, hc, List.append_assoc, List.drop_left] at hb
      simp only [attemptFlags, List.filterMap_append] at hb
      rcases List.mem_append.mp hb with hb | hb
      · simp [List.filterMap] at hb
      · refine ih (crawlIter_visited_ne beh s u rest hne) b ?_
        rw [hext, hc, List.drop_left]
        simpa [attemptFlags] using hb
    · rw [hext, hc, List.append_assoc, List.drop_left] at hb
      simp only [attemptFlags, List.filterMap_append] at hb
      rcases List.mem_append.mp hb with hb | hb
      · simp [List.filterMap] at hb
        rw [hb]
        simp [List.isEmpty_iff, hne]
      · refine ih (crawlIter_visited_ne beh s u rest hne) b ?_
        rw [hext, hc, List.drop_left]
        simpa [attemptFlags] using hb
  | case3 s u rest h hlt =>
    intro _ b hb
    rw [crawlLoop_stop beh mp s hlt, List.drop_length] at hb
    simp [attemptFlags] at hb

/-- C9: for every run of the crawl loop, the pacing delay is suspended
before a fetch exactly when the visited set is non-empty at that iteration
(the delay flag recorded for each attempt is by construction the
non-emptiness test of line 102), and this skips the delay only before the
very first fetch of the run: the recorded flags are either empty or `false`
followed by `true` for every later attempt. -/
theorem c9_delay_skipped_only_first (beh : Behaviour) (mp : Nat) (start : String) :
    attemptFlags (crawl beh mp start).trace = [] ∨
    ∃ k, attemptFlags (crawl beh mp start).trace = false :: List.replicate k true := by
  by_cases hmp : 0 < mp
  · have h1 : crawl beh mp start =
        crawlLoop beh mp (crawlIter beh (initState start) start []) :=
      crawlLoop_cons beh mp (initState start) start [] rfl (by simp [initState, hmp])
    have htr : (crawlIter beh (initState start) start []).trace =
        [Event.attempt start false] := by
      have h := crawlIter_trace_attempt beh (initState start) start [] (by simp [initState])
      simpa [initState] using h
    rcases crawlIter_cases beh (initState start) start [] with ⟨hv, hq⟩ | hv
    · have h2 : crawlLoop beh mp (crawlIter beh (initState start) start []) =
          crawlIter beh (initState start) start [] :=
        crawlLoop_nil beh mp _ (by rw [hq])
      right
      refine ⟨0, ?_⟩
      rw [h1, h2, htr]
      simp [attemptFlags, List.filterMap]
    · have hne : (crawlIter beh (initState start) start []).visited ≠ [] := by
        rw [hv]; exact List.cons_ne_nil _ _
      obtain ⟨ext, hext⟩ := crawlLoop_trace_ext beh mp (crawlIter beh (initState start) start [])
      have hflags : ∀ b ∈ attemptFlags ext, b = true := by
        intro b hb
        refine crawlLoop_flags_true beh mp _ hne b ?_
        rw [hext, htr]
        simpa [attemptFlags] using hb
      right
      refine ⟨(attemptFlags ext).length, ?_⟩
      rw [h1, hext, htr]
      simp only [attemptFlags, List.filterMap_append]
      have : List.filterMap
          (fun e => match e with | .attempt _ d => some d | .skip _ => none)
          [Event.attempt start false] = [false] := rfl
      rw [this]
      have hrep : attemptFlags ext = List.replicate (attemptFlags ext).length true :=
        List.eq_replicate_length.mpr hflags
      simpa [attemptFlags] using congrArg (fun l => false :: l) hrep
  · left
    have h0 : mp = 0 := by omega
    rw [crawl, crawlLoop_stop beh mp (initState start) (by simp [initState, h0])]
    simp [initState, attemptFlags]

/- ## Breadth-first order (C4) -/

/-- The breadth-first scenario run to completion: with a budget of at least
four pages the whole reachable site is fetched, in discovery order. -/
theorem crawl_beh4_final (mp : Nat) (h4 : 4 ≤ mp) :
    crawl beh4 mp "start" =
      { visited := ["C", "B", "A", "start"], toVisit := [],
        pages := [⟨"start", none, 0, 2⟩, ⟨"A", none, 0, 1⟩, ⟨"B", none, 0, 0⟩,
                  ⟨"C", none, 0, 0⟩],
        trace := [Event.attempt "start" false, Event.attempt "A" true,
                  Event.attempt "B" true, Event.attempt "C" true],
        tick := 4 } := by
  have s1 : crawlIter beh4 (initState "start") "start" [] =
      { visited := ["start"], toVisit := ["A", "B"], pages := [⟨"start", none, 0, 2⟩],
        trace := [Event.attempt "start" false], tick := 1 } := by decide
  have s2 : crawlIter beh4
      { visited := ["start"], toVisit := ["A", "B"], pages := [⟨"start", none, 0, 2⟩],
        trace := [Event.attempt "start" false], tick := 1 } "A" ["B"] =
      { visited := ["A", "start"], toVisit := ["B", "C"],
        pages := [⟨"start", none, 0, 2⟩, ⟨"A", none, 0, 1⟩],
        trace := [Event.attempt "start" false, Event.attempt "A" true], tick := 2 } := by
    decide
  have s3 : crawlIter beh4
      { visited := ["A", "start"], toVisit := ["B", "C"],
        pages := [⟨"start", none, 0, 2⟩, ⟨"A", none, 0, 1⟩],
        trace := [Event.attempt "start" false, Event.attempt "A" true], tick := 2 }
      "B" ["C"] =
      { visited := ["B", "A", "start"], toVisit := ["C"],
        pages := [⟨"start", none, 0, 2⟩, ⟨"A", none, 0, 1⟩, ⟨"B", none, 0, 0⟩],
        trace := [Event.attempt "start" false, Event.attempt "A" true,
                  Event.attempt "B" true], tick := 3 } := by decide
  have s4 : crawlIter beh4
      { visited := ["B", "A", "start"], toVisit := ["C"],
        pages := [⟨"start", none, 0, 2⟩, ⟨"A", none, 0, 1⟩, ⟨"B", none, 0, 0⟩],
        trace := [Event.attempt "start" false, Event.attempt "A" true,
                  Event.attempt "B" true], tick := 3 } "C" [] =
      { visited := ["C", "B", "A", "start"], toVisit := [],
        pages := [⟨"start", none, 0, 2⟩, ⟨"A", none, 0, 1⟩, ⟨"B", none, 0, 0⟩,
                  ⟨"C", none, 0, 0⟩],
        trace := [Event.attempt "start" false, Event.attempt "A" true,
                  Event.attempt "B" true, Event.attempt "C" true], tick := 4 } := by decide
  rw [crawl,
    crawlLoop_cons beh4 mp (initState "start") "start" []
      rfl (lt_of_lt_of_le (by decide) h4), s1,
    crawlLoop_cons beh4 mp _ "A" ["B"] rfl (lt_of_lt_of_le (by decide) h4), s2,
    crawlLoop_cons beh4 mp _ "B" ["C"] rfl (lt_of_lt_of_le (by decide) h4), s3,
    crawlLoop_cons beh4 mp _ "C" [] rfl (lt_of_lt_of_le (by decide) h4), s4,
    crawlLoop_nil beh4 mp _ rfl]

/-- The breadth-first scenario with `maxPages = 3`: the loop stops after the
third success, leaving C in the frontier unfetched. -/
theorem crawl_beh4_three :
    crawl beh4 3 "start" =
      { visited := ["B", "A", "start"], toVisit := ["C"],
        pages := [⟨"start", none, 0, 2⟩, ⟨"A", none, 0, 1⟩, ⟨"B", none, 0, 0⟩],
        trace := [Event.attempt "start" false, Event.attempt "A" true,
                  Event.attempt "B" true], tick := 3 } := by
  have s1 : crawlIter beh4 (initState "start") "start" [] =
      { visited := ["start"], toVisit := ["A", "B"], pages := [⟨"start", none, 0, 2⟩],
        trace := [Event.attempt "start" false], tick := 1 } := by decide
  have s2 : crawlIter beh4
      { visited := ["start"], toVisit := ["A", "B"], pages := [⟨"start", none, 0, 2⟩],
        trace := [Event.attempt "start" false], tick := 1 } "A" ["B"] =
      { visited := ["A", "start"], toVisit := ["B", "C"],
        pages := [⟨"start", none, 0, 2⟩, ⟨"A", none, 0, 1⟩],
        trace := [Event.attempt "start" false, Event.attempt "A" true], tick := 2 } := by
    decide
  have s3 : crawlIter beh4
      { visited := ["A", "start"], toVisit := ["B", "C"],
        pages := [⟨"start", none, 0, 2⟩, ⟨"A", none, 0, 1⟩],
        trace := [Event.attempt "start" false, Event.attempt "A" true], tick := 2 }
      "B" ["C"] =
      { visited := ["B", "A", "start"], toVisit := ["C"],
        pages := [⟨"start", none, 0, 2⟩, ⟨"A", none, 0, 1⟩, ⟨"B", none, 0, 0⟩],
        trace := [Event.attempt "start" false, Event.attempt "A" true,
                  Event.attempt "B" true], tick := 3 } := by decide
  rw [crawl,
    crawlLoop_cons beh4 3 (initState "start") "start" [] rfl (by decide), s1,
    crawlLoop_cons beh4 3 _ "A" ["B"] rfl (by decide), s2,
    crawlLoop_cons beh4 3 _ "B" ["C"] rfl (by decide), s3,
    crawlLoop_stop beh4 3 _ (by decide)]

/-- Counterexample to C4 as stated: in the scenario where the start page
links to A and B and A links to C, with `maxPages = 3` (which satisfies
`maxPages ≥ 3`), the fetch order is `start, A, B` — C is never fetched, so
the order is not `start, A, B, C`. -/
theorem c4_counterexample :
    attemptsOf (crawl beh4 3 "start").trace = ["start", "A", "B"] ∧
    attemptsOf (crawl beh4 3 "start").trace ≠ ["start", "A", "B", "C"] := by
  rw [crawl_beh4_three]
  exact ⟨rfl, by decide⟩

/-- C4 (amended): in the breadth-first scenario (start links to A then B, A
links to C), the fetch order is breadth-first by discovery: with
`maxPages ≥ 4` the order is exactly start, A, B, C — in particular C is
never fetched before both A and B have been attempted — while with
`maxPages = 3` the order is start, A, B and C stays in the frontier. -/
theorem c4_breadth_first_order :
    (∀ mp : Nat, 4 ≤ mp →
      attemptsOf (crawl beh4 mp "start").trace = ["start", "A", "B", "C"]) ∧
    attemptsOf (crawl beh4 3 "start").trace = ["start", "A", "B"] := by
  constructor
  · intro mp h4
    rw [crawl_beh4_final mp h4]
    decide
  · rw [crawl_beh4_three]
    decide

/-- Witness for the amended C4 at the concrete budget 4. -/
theorem c4_witness :
    4 ≤ 4 ∧ attemptsOf (crawl beh4 4 "start").trace = ["start", "A", "B", "C"] :=
  ⟨by decide, c4_breadth_first_order.1 4 (by decide)⟩

/- ## Scope of enqueued URLs (C5) -/

/-- Everything `get_links` returns passes `is_valid_url` (line 62). -/
theorem get_links_valid (domain url : String) (d : List Node) :
    ∀ x ∈ get_links domain url d, is_valid_url domain x = true := by
  intro x hx
  simp only [get_links, List.mem_filterMap] at hx
  obtain ⟨a, _, hfx⟩ := hx
  split at hfx
  next hv => injection hfx with h2; rw [← h2]; exact hv
  next => exact absurd hfx (by simp)

/-- Membership in the enqueue result comes from the old deque or from the
link list. -/
theorem mem_enqueueLinks (visited : List String) :
    ∀ (links q : List String) (x : String),
      x ∈ enqueueLinks visited q links → x ∈ q ∨ x ∈ links := by
  intro links
  induction links with
  | nil => exact fun q x hx => Or.inl hx
  | cons l ls ih =>
    intro q x hx
    rcases ih _ x hx with hx2 | hx2
    · have hx3 : x ∈ (if l ∉ visited ∧ l ∉ q then q ++ [l] else q) := hx2
      by_cases hc : l ∉ visited ∧ l ∉ q
      · rw [if_pos hc] at hx3
        rcases List.mem_append.mp hx3 with h | h
        · exact Or.inl h
        · have := List.mem_singleton.mp h
          exact Or.inr (by rw [this]; exact List.mem_cons_self l ls)
      · rw [if_neg hc] at hx3
        exact Or.inl hx3
    · exact Or.inr (List.mem_cons_of_mem l hx2)

/-- After an iteration the deque holds only leftovers of the old deque or
links reported by the behaviour's success outcome. -/
theorem crawlIter_toVisit_sub (beh : Behaviour) (s : EngineState) (u : String)
    (rest : List String) :
    ∀ x ∈ (crawlIter beh s u rest).toVisit,
      x ∈ rest ∨ ∃ text links title,
        beh s.tick u = FetchResult.success text links title ∧ x ∈ links := by
  unfold crawlIter
  split
  · exact fun x hx => Or.inl hx
  · cases hb : beh s.tick u with
    | fetchFail => exact fun x hx => Or.inl hx
    | extractFail => exact fun x hx => Or.inl hx
    | success text links title =>
      intro x hx
      rcases mem_enqueueLinks _ _ _ x hx with h | h
      · exact Or.inl h
      · exact Or.inr ⟨text, links, title, rfl, h⟩

/-- For the composed behaviour, an iteration preserves "every queued URL is
in scope". -/
theorem crawlIter_behOf_valid (f : DocFetch) (dom : String) (s : EngineState)
    (u : String) (rest : List String)
    (hrest : ∀ x ∈ rest, is_valid_url dom x = true) :
    ∀ x ∈ (crawlIter (behOf f dom) s u rest).toVisit, is_valid_url dom x = true := by
  intro x hx
  rcases crawlIter_toVisit_sub (behOf f dom) s u rest x hx with h | ⟨text, links, title, hb, hxl⟩
  · exact hrest x h
  · unfold behOf at hb
    cases hfd : f s.tick u with
    | none => rw [hfd] at hb; exact absurd hb (by simp)
    | some d =>
      rw [hfd] at hb
      have hlinks : links = get_links dom u d := by
        injection hb with _ h2 _
        exact h2.symm
      rw [hlinks] at hxl
      exact get_links_valid dom u d x hxl

/-- For the composed behaviour, every state of the run keeps all queued
URLs in scope. -/
theorem crawlStates_behOf_valid (f : DocFetch) (dom : String) (mp : Nat) :
    ∀ s : EngineState, (∀ x ∈ s.toVisit, is_valid_url dom x = true) →
      ∀ t ∈ crawlStates (behOf f dom) mp s, ∀ x ∈ t.toVisit, is_valid_url dom x = true := by
  intro s
  induction s using crawlStates.induct (behOf f dom) mp with
  | case1 s ih =>
    intro hall t ht x hx
    cases hq : s.toVisit with
    | nil =>
      rw [crawlStates_nil _ mp s hq] at ht
      rw [List.mem_singleton.mp ht] at hx
      exact hall x hx
    | cons u rest =>
      by_cases hlt : s.visited.length < mp
      · rw [crawlStates_cons _ mp s u rest hq hlt] at ht
        rcases List.mem_cons.mp ht with ht | ht
        · rw [ht] at hx
          exact hall x hx
        · have hrest : ∀ y ∈ rest, is_valid_url dom y = true := fun y hy =>
            hall y (by rw [hq]; exact List.mem_cons_of_mem u hy)
          exact ih u rest hq hlt (crawlIter_behOf_valid f dom s u rest hrest) t ht x hx
      · rw [crawlStates_stop _ mp s hlt] at ht
        rw [List.mem_singleton.mp ht] at hx
        exact hall x hx

/-- Counterexample to C5 as stated: constructing the engine with the start
URL `"foo"` (no scheme, no host) enqueues `"foo"` at construction time, yet
the scope predicate rejects it — `is_valid_url` demands a non-empty scheme
and host, which `"foo"` lacks. -/
theorem c5_counterexample :
    "foo" ∈ (initState "foo").toVisit ∧
    is_valid_url (urlparse "foo").netloc "foo" = false := by
  constructor
  · simp [initState]
  · decide

/-- C5 (amended): provided the start URL has a non-empty scheme and a
non-empty host (so that it itself passes the scope test against its own
domain), every URL present in the frontier at any point of any run — the
start URL placed there at construction included — satisfies the domain-scope
predicate. -/
theorem c5_enqueued_in_scope (docFetch : DocFetch) (mp : Nat) (start : String)
    (h1 : (urlparse start).scheme ≠ "") (h2 : (urlparse start).netloc ≠ "") :
    ∀ t ∈ crawlStates (behOf docFetch (urlparse start).netloc) mp (initState start),
      ∀ x ∈ t.toVisit, is_valid_url (urlparse start).netloc x = true := by
  refine crawlStates_behOf_valid docFetch _ mp (initState start) ?_
  intro x hx
  have hxs : x = start := by simpa [initState] using hx
  rw [hxs]
  simp [is_valid_url, h1, h2]

/-- Witness for the amended C5 at a concrete start URL, applied to the
initial state of a run whose fetches all fail. -/
theorem c5_witness :
    (urlparse "http://h/").scheme ≠ "" ∧ (urlparse "http://h/").netloc ≠ "" ∧
    is_valid_url (urlparse "http://h/").netloc "http://h/" = true :=
  ⟨by decide, by decide,
   c5_enqueued_in_scope (fun _ _ => none) 1 "http://h/" (by decide) (by decide)
     (initState "http://h/") (self_mem_crawlStates _ 1 _) "http://h/"
     (by simp [initState])⟩

/- ## Link extraction (C7) -/

/-- Counterexample to C7 as stated: a page with two identical in-scope
anchors yields a link LIST with a duplicate — `get_links` does not return a
set. -/
theorem c7_counterexample :
    get_links "h" "http://h/" docDupLinks = ["http://h/x", "http://h/x"] ∧
    ¬ (get_links "h" "http://h/" docDupLinks).Nodup := by decide

/-- C7 (amended): `get_links` returns the list, in document order and
possibly with duplicates, of the resolutions of the hyperlink reference
attribute values against the page URL; its members are exactly the in-scope
resolutions of the document's href values. -/
theorem c7_links_membership (domain url : String) (d : List Node) (x : String) :
    x ∈ get_links domain url d ↔
      is_valid_url domain x = true ∧ ∃ a ∈ hrefsList d, x = urljoin url a := by
  simp only [get_links, List.mem_filterMap]
  constructor
  · rintro ⟨a, ha, hfx⟩
    split at hfx
    next hv =>
      injection hfx with h2
      exact ⟨h2 ▸ hv, a, ha, h2.symm⟩
    next => exact absurd hfx (by simp)
  · rintro ⟨hv, a, ha, hx⟩
    refine ⟨a, ha, ?_⟩
    subst hx
    rw [if_pos hv]

/- ## Title extraction (C8) -/

mutual
/-- A tree without a title element has no first title element. -/
theorem findTitleNode_none : ∀ n : Node, hasTitleNode n = false → findTitleNode n = none
  | .text _, _ => rfl
  | .elem t a cs, h => by
    unfold hasTitleNode at h
    rcases Bool.or_eq_false_iff.mp h with ⟨h1, h2⟩
    unfold findTitleNode
    simp only [h1, Bool.false_eq_true, if_false]
    exact findTitleList_none cs h2
/-- A forest without a title element has no first title element. -/
theorem findTitleList_none : ∀ d : List Node, hasTitleList d = false → findTitleList d = none
  | [], _ => rfl
  | n :: ns, h => by
    unfold hasTitleList at h
    rcases Bool.or_eq_false_iff.mp h with ⟨h1, h2⟩
    unfold findTitleList
    rw [findTitleNode_none n h1]
    exact findTitleList_none ns h2
end

/-- Counterexample to C8 as stated: a document whose title element is
present but empty produces a page record whose title field is the Python
value `None` — not a string, and not the `"No title"` sentinel — because
`soup.title.string` is `None` for a title tag without exactly one string
child. -/
theorem c8_counterexample :
    titleOf docEmptyTitle = none ∧
    (crawlSite fetchEmptyTitle 1 "http://h/").pages =
      [{ url := "http://h/", title := none, text_length := 0, links_found := 0 }] := by
  constructor
  · rfl
  · have s1 : crawlIter (behOf fetchEmptyTitle (urlparse "http://h/").netloc)
        (initState "http://h/") "http://h/" [] =
        { visited := ["http://h/"], toVisit := [],
          pages := [{ url := "http://h/", title := none, text_length := 0,
                      links_found := 0 }],
          trace := [Event.attempt "http://h/" false], tick := 1 } := by decide
    rw [crawlSite, crawl,
      crawlLoop_cons _ 1 (initState "http://h/") "http://h/" [] rfl (by decide), s1,
      crawlLoop_nil _ 1 _ rfl]

/-- C8 (amended): the page-record title field is the sentinel `"No title"`
when no title element exists, and the first title element's `.string`
otherwise, following BeautifulSoup's rule in every case: a title whose
single child is the string `s` gives `s`; a title whose single child is any
node takes that child's own `.string` (so the rule recurses through a lone
tag child); a title with zero children or with two or more children gives
the Python value `None` — hence the field is not a string in every case. -/
theorem c8_title_field (d : List Node) :
    (hasTitleList d = false → titleOf d = some "No title") ∧
    (∀ a s, findTitleList d = some (Node.elem "title" a [Node.text s]) →
      titleOf d = some s) ∧
    (∀ a c, findTitleList d = some (Node.elem "title" a [c]) →
      titleOf d = nodeString c) ∧
    (∀ a, findTitleList d = some (Node.elem "title" a []) → titleOf d = none) ∧
    (∀ a c1 c2 cs, findTitleList d = some (Node.elem "title" a (c1 :: c2 :: cs)) →
      titleOf d = none) := by
  refine ⟨?_, ?_, ?_, ?_, ?_⟩
  · intro h
    unfold titleOf
    rw [findTitleList_none d h]
  · intro a s h
    unfold titleOf
    rw [h]
    rfl
  · intro a c h
    unfold titleOf
    rw [h]
    rfl
  · intro a h
    unfold titleOf
    rw [h]
    rfl
  · intro a c1 c2 cs h
    unfold titleOf
    rw [h]
    rfl

/-- Witness for the amended C8, covering each `.string` case at a concrete
document: no title element at all, a one-string title, a title wrapping its
text in a single tag child, a title with no children, and a title with two
children. -/
theorem c8_witness :
    hasTitleList ([] : List Node) = false ∧ titleOf ([] : List Node) = some "No title" ∧
    findTitleList docTitled = some (Node.elem "title" [] [Node.text "T"]) ∧
    titleOf docTitled = some "T" ∧
    findTitleList docNestedTitle =
      some (Node.elem "title" [] [Node.elem "b" [] [Node.text "T"]]) ∧
    titleOf docNestedTitle = nodeString (Node.elem "b" [] [Node.text "T"]) ∧
    titleOf docNestedTitle = some "T" ∧
    findTitleList docEmptyTitle = some (Node.elem "title" [] []) ∧
    titleOf docEmptyTitle = none ∧
    findTitleList docTwoChildTitle =
      some (Node.elem "title" [] [Node.text "A", Node.elem "b" [] [Node.text "B"]]) ∧
    titleOf docTwoChildTitle = none :=
  ⟨rfl, (c8_title_field []).1 rfl,
   rfl, (c8_title_field docTitled).2.1 [] "T" rfl,
   rfl, (c8_title_field docNestedTitle).2.2.1 [] (Node.elem "b" [] [Node.text "T"]) rfl,
   by
     rw [(c8_title_field docNestedTitle).2.2.1 [] (Node.elem "b" [] [Node.text "T"]) rfl]
     decide,
   rfl, (c8_title_field docEmptyTitle).2.2.2.1 [] rfl,
   rfl, (c8_title_field docTwoChildTitle).2.2.2.2 [] (Node.text "A")
     (Node.elem "b" [] [Node.text "B"]) [] rfl⟩

/- ## Script/style erasure does not affect extracted text (towards C6) -/

mutual
/-- Stripping is insensitive to the contents of script/style elements. -/
theorem stripNode_erase : ∀ n : Node, stripNode (eraseNode n) = stripNode n
  | .text _ => rfl
  | .elem t a cs => by
    unfold eraseNode
    by_cases hts : (t == "script" || t == "style") = true
    · rw [if_pos hts]
      unfold stripNode
      rw [if_pos hts, if_pos hts]
    · rw [if_neg hts]
      unfold stripNode
      rw [if_neg hts, if_neg hts, stripList_erase cs]
/-- Stripping a forest is insensitive to the contents of script/style
elements. -/
theorem stripList_erase : ∀ d : List Node, stripList (eraseList d) = stripList d
  | [] => rfl
  | n :: ns => by
    have h1 := stripNode_erase n
    have h2 := stripList_erase ns
    unfold eraseList stripList
    rw [h1, h2]
end

/-- Erasing script/style contents does not change the extracted text. -/
theorem extract_text_erase (d : List Node) :
    extract_text (eraseList d) = extract_text d := by
  unfold extract_text
  rw [stripList_erase d]

/- ## Whitespace tokens: basic facts about `splitWS` and `wordsWS` -/

/-- Unfolding `splitWS` on the empty text. -/
theorem splitWS_nil : splitWS [] = [[]] := rfl

/-- Unfolding `splitWS` at a whitespace character. -/
theorem splitWS_cons_ws (c : Char) (rest : List Char) (h : pyWS c = true) :
    splitWS (c :: rest) = [] :: splitWS rest := by
  conv_lhs => unfold splitWS
  rw [if_pos h]

/-- `splitWS` never returns the empty list of pieces. -/
theorem splitWS_ne_nil : ∀ t : List Char, splitWS t ≠ []
  | [] => by simp [splitWS]
  | c :: rest => by
    unfold splitWS
    split
    · simp
    · split <;> simp

/-- Unfolding `splitWS` at a non-whitespace character, given the shape of
the recursive result. -/
theorem splitWS_cons_nws_eq (x : Char) (r : List Char) (hx : pyWS x = false)
    (hd : List Char) (tl : List (List Char)) (hr : splitWS r = hd :: tl) :
    splitWS (x :: r) = (x :: hd) :: tl := by
  unfold splitWS
  rw [if_neg (by simp [hx]), hr]

/-- At a non-whitespace head, the first piece starts with that head. -/
theorem splitWS_cons_nws (x : Char) (r : List Char) (hx : pyWS x = false) :
    ∃ hd tl, splitWS (x :: r) = (x :: hd) :: tl := by
  obtain ⟨p, ps, hps⟩ := List.exists_cons_of_ne_nil (splitWS_ne_nil r)
  exact ⟨p, ps, splitWS_cons_nws_eq x r hx p ps hps⟩

/-- Splitting distributes over a whitespace character. -/
theorem splitWS_append_ws (c : Char) (hc : pyWS c = true) :
    ∀ a b : List Char, splitWS (a ++ c :: b) = splitWS a ++ splitWS b := by
  intro a
  induction a with
  | nil =>
    intro b
    rw [List.nil_append, splitWS_cons_ws c b hc, splitWS_nil]
    rfl
  | cons x a2 ih =>
    intro b
    cases hx : pyWS x with
    | true =>
      rw [List.cons_append, splitWS_cons_ws x _ hx, splitWS_cons_ws x a2 hx, ih]
      rfl
    | false =>
      obtain ⟨p, ps, hps⟩ := List.exists_cons_of_ne_nil (splitWS_ne_nil a2)
      have h1 : splitWS (x :: a2) = (x :: p) :: ps := splitWS_cons_nws_eq x a2 hx p ps hps
      have h2 : splitWS (a2 ++ c :: b) = p :: (ps ++ splitWS b) := by
        rw [ih, hps]
        rfl
      rw [List.cons_append, splitWS_cons_nws_eq x _ hx p (ps ++ splitWS b) h2, h1]
      rfl

/-- No tokens in the empty text. -/
theorem wordsWS_nil : wordsWS [] = [] := rfl

/-- Tokenizing distributes over a whitespace character. -/
theorem wordsWS_append_ws (c : Char) (hc : pyWS c = true) (a b : List Char) :
    wordsWS (a ++ c :: b) = wordsWS a ++ wordsWS b := by
  unfold wordsWS
  rw [splitWS_append_ws c hc a b, List.filter_append]

/-- A leading whitespace character does not change the tokens. -/
theorem wordsWS_ws_cons (c : Char) (hc : pyWS c = true) (b : List Char) :
    wordsWS (c :: b) = wordsWS b := by
  have h := wordsWS_append_ws c hc [] b
  simpa using h

/-- A trailing whitespace character does not change the tokens. -/
theorem wordsWS_ws_append (c : Char) (hc : pyWS c = true) (a : List Char) :
    wordsWS (a ++ [c]) = wordsWS a := by
  have h := wordsWS_append_ws c hc a []
  rw [wordsWS_nil] at h
  simpa using h

/-- Dropping leading whitespace does not change the tokens. -/
theorem wordsWS_dropWhile (t : List Char) : wordsWS (t.dropWhile pyWS) = wordsWS t := by
  induction t with
  | nil => rfl
  | cons c rest ih =>
    cases hc : pyWS c with
    | true =>
      rw [List.dropWhile_cons]
      simp only [hc, if_true]
      rw [ih, wordsWS_ws_cons c hc rest]
    | false =>
      rw [List.dropWhile_cons]
      simp [hc]

/-- Dropping trailing whitespace does not change the tokens. -/
theorem wordsWS_rstrip (t : List Char) :
    wordsWS ((t.reverse.dropWhile pyWS).reverse) = wordsWS t := by
  induction t using List.reverseRecOn with
  | nil => rfl
  | append_singleton a c ih =>
    cases hc : pyWS c with
    | true =>
      rw [List.reverse_append]
      simp only [List.reverse_singleton, List.singleton_append, List.dropWhile_cons]
      simp only [hc, if_true]
      rw [ih, wordsWS_ws_append c hc a]
    | false =>
      rw [List.reverse_append]
      simp only [List.reverse_singleton, List.singleton_append, List.dropWhile_cons]
      simp [hc]

/-- Stripping does not change the tokens. -/
theorem wordsWS_pyStrip (t : List Char) : wordsWS (pyStrip t) = wordsWS t := by
  unfold pyStrip
  rw [wordsWS_rstrip (t.dropWhile pyWS), wordsWS_dropWhile t]

/- ## Basic facts about `joinSpace` -/

/-- Pulling the head character out of the first joined entry. -/
theorem joinSpace_cons_cons (x : Char) (h : List Char) (ps : List (List Char)) :
    joinSpace ((x :: h) :: ps) = x :: joinSpace (h :: ps) := by
  cases ps <;> simp [joinSpace]

/-- Unfolding `joinSpace` on a cons with a non-empty tail. -/
theorem joinSpace_cons_of_ne (w : List Char) (ps : List (List Char)) (h : ps ≠ []) :
    joinSpace (w :: ps) = w ++ ' ' :: joinSpace ps := by
  cases ps with
  | nil => exact absurd rfl h
  | cons p ps2 => rfl

/-- `joinSpace` distributes over appending two non-empty piece lists. -/
theorem joinSpace_append : ∀ A B : List (List Char), A ≠ [] → B ≠ [] →
    joinSpace (A ++ B) = joinSpace A ++ ' ' :: joinSpace B := by
  intro A
  induction A with
  | nil => exact fun B h _ => absurd rfl h
  | cons x A2 ih =>
    intro B _ hB
    cases hA2 : A2 with
    | nil =>
      rw [List.singleton_append, joinSpace_cons_of_ne x B hB]
      rfl
    | cons y A3 =>
      subst hA2
      rw [List.cons_append, joinSpace_cons_of_ne x (y :: A3 ++ B) (by simp),
        ih B (by simp) hB, joinSpace_cons_of_ne x (y :: A3) (by simp)]
      simp

/- ## Facts about `splitLF` (the splitlines model) -/

/-- Unfolding `splitLF` on the empty text. -/
theorem splitLF_nil : splitLF [] = [] := rfl

/-- Unfolding `splitLF` at a newline. -/
theorem splitLF_lf (rest : List Char) : splitLF ('\n' :: rest) = [] :: splitLF rest := by
  conv_lhs => unfold splitLF
  rw [if_pos rfl]

/-- Unfolding `splitLF` at a non-newline head, recursive result known. -/
theorem splitLF_cons_eq (c : Char) (rest : List Char) (hc : c ≠ '\n')
    (hd : List Char) (tl : List (List Char)) (hr : splitLF rest = hd :: tl) :
    splitLF (c :: rest) = (c :: hd) :: tl := by
  conv_lhs => unfold splitLF
  rw [if_neg hc, hr]

/-- Unfolding `splitLF` at a non-newline head over an empty remainder. -/
theorem splitLF_cons_nil (c : Char) (rest : List Char) (hc : c ≠ '\n')
    (hr : splitLF rest = []) : splitLF (c :: rest) = [[c]] := by
  conv_lhs => unfold splitLF
  rw [if_neg hc, hr]

/-- Only the empty text has no lines. -/
theorem splitLF_eq_nil (t : List Char) : splitLF t = [] ↔ t = [] := by
  constructor
  · intro h
    cases t with
    | nil => rfl
    | cons c rest =>
      exfalso
      by_cases hc : c = '\n'
      · subst hc
        rw [splitLF_lf] at h
        simp at h
      · cases hr : splitLF rest with
        | nil => rw [splitLF_cons_nil c rest hc hr] at h; simp at h
        | cons hd tl => rw [splitLF_cons_eq c rest hc hd tl hr] at h; simp at h
  · intro h
    rw [h]
    rfl

/-- Pulling the head character out of the first joined line. -/
theorem joinLF_cons_cons (x : Char) (h : List Char) (ps : List (List Char)) :
    joinLF ((x :: h) :: ps) = x :: joinLF (h :: ps) := by
  cases ps <;> simp [joinLF]

/-- Unfolding `joinLF` on a cons with a non-empty tail. -/
theorem joinLF_cons_of_ne (w : List Char) (ps : List (List Char)) (h : ps ≠ []) :
    joinLF (w :: ps) = w ++ '\n' :: joinLF ps := by
  cases ps with
  | nil => exact absurd rfl h
  | cons p ps2 => rfl

/-- Joining the lines recovers the text, up to one trailing newline that
`splitlines` swallows. -/
theorem splitLF_join : ∀ t : List Char,
    joinLF (splitLF t) = t ∨ joinLF (splitLF t) ++ ['\n'] = t := by
  intro t
  induction t with
  | nil => exact Or.inl rfl
  | cons c rest ih =>
    by_cases hc : c = '\n'
    · subst hc
      rw [splitLF_lf]
      cases hr : splitLF rest with
      | nil =>
        have hrest : rest = [] := (splitLF_eq_nil rest).mp hr
        subst hrest
        exact Or.inr rfl
      | cons hd tl =>
        rw [joinLF_cons_of_ne [] (hd :: tl) (by simp)]
        simp only [List.nil_append]
        rw [← hr]
        rcases ih with ih | ih
        · exact Or.inl (by rw [ih])
        · exact Or.inr (by rw [List.cons_append, ih])
    · cases hr : splitLF rest with
      | nil =>
        have hrest : rest = [] := (splitLF_eq_nil rest).mp hr
        subst hrest
        rw [splitLF_cons_nil c [] hc rfl]
        exact Or.inl rfl
      | cons hd tl =>
        rw [splitLF_cons_eq c rest hc hd tl hr, joinLF_cons_cons, ← hr]
        rcases ih with ih | ih
        · exact Or.inl (by rw [ih])
        · exact Or.inr (by rw [List.cons_append, ih])

/-- Every line is newline-free and made of characters of the text. -/
theorem splitLF_mem : ∀ t : List Char, ∀ p ∈ splitLF t, '\n' ∉ p ∧ ∀ c ∈ p, c ∈ t := by
  intro t
  induction t with
  | nil =>
    intro p hp
    rw [splitLF_nil] at hp
    simp at hp
  | cons c rest ih =>
    intro p hp
    by_cases hc : c = '\n'
    · subst hc
      rw [splitLF_lf] at hp
      rcases List.mem_cons.mp hp with hp | hp
      · subst hp
        exact ⟨by simp, by simp⟩
      · obtain ⟨h1, h2⟩ := ih p hp
        exact ⟨h1, fun x hx => List.mem_cons_of_mem _ (h2 x hx)⟩
    · cases hr : splitLF rest with
      | nil =>
        rw [splitLF_cons_nil c rest hc hr] at hp
        have hpc : p = [c] := List.mem_singleton.mp hp
        subst hpc
        constructor
        · intro hmem
          exact hc (List.mem_singleton.mp hmem).symm
        · intro x hx
          rw [List.mem_singleton.mp hx]
          exact List.mem_cons_self c rest
      | cons hd tl =>
        rw [splitLF_cons_eq c rest hc hd tl hr] at hp
        rcases List.mem_cons.mp hp with hp | hp
        · obtain ⟨h1, h2⟩ := ih hd (by rw [hr]; exact List.mem_cons_self hd tl)
          subst hp
          constructor
          · intro hmem
            rcases List.mem_cons.mp hmem with h | h
            · exact hc h.symm
            · exact h1 h
          · intro x hx
            rcases List.mem_cons.mp hx with h | h
            · rw [h]; exact List.mem_cons_self c rest
            · exact List.mem_cons_of_mem c (h2 x h)
        · obtain ⟨h1, h2⟩ := ih p (by rw [hr]; exact List.mem_cons_of_mem hd hp)
          exact ⟨h1, fun x hx => List.mem_cons_of_mem c (h2 x hx)⟩

/-- Tokens of joined lines are the concatenated tokens of the lines. -/
theorem wordsWS_joinLF : ∀ ps : List (List Char),
    wordsWS (joinLF ps) = ps.flatMap wordsWS := by
  intro ps
  induction ps with
  | nil => rfl
  | cons p ps2 ih =>
    cases hps : ps2 with
    | nil =>
      subst hps
      simp [joinLF]
    | cons q ps3 =>
      subst hps
      rw [joinLF_cons_of_ne p (q :: ps3) (by simp),
        wordsWS_append_ws '\n' (by decide) p (joinLF (q :: ps3)), ih]
      simp

/-- The tokens of a text are the concatenated tokens of its lines. -/
theorem wordsWS_splitLF (t : List Char) : (splitLF t).flatMap wordsWS = wordsWS t := by
  rcases splitLF_join t with h | h
  · rw [← wordsWS_joinLF (splitLF t), h]
  · rw [← wordsWS_joinLF (splitLF t)]
    conv_rhs => rw [← h]
    rw [wordsWS_ws_append '\n' (by decide) (joinLF (splitLF t))]

/- ## Facts about `splitTwoSpace` (the two-space split model) -/

/-- Unfolding `splitTwoSpace` on the empty line. -/
theorem splitTwoSpace_nil : splitTwoSpace [] = [[]] := rfl

/-- Unfolding `splitTwoSpace` on a one-character line. -/
theorem splitTwoSpace_single (c : Char) : splitTwoSpace [c] = [[c]] := rfl

/-- `splitTwoSpace` never returns the empty piece list. -/
theorem splitTwoSpace_ne_nil : ∀ l : List Char, splitTwoSpace l ≠ []
  | [] => by simp [splitTwoSpace]
  | [c] => by simp [splitTwoSpace]
  | c1 :: c2 :: rest => by
    unfold splitTwoSpace
    split
    · simp
    · split <;> simp

/-- Unfolding `splitTwoSpace` at a double space. -/
theorem splitTwoSpace_dbl (rest : List Char) :
    splitTwoSpace (' ' :: ' ' :: rest) = [] :: splitTwoSpace rest := by
  conv_lhs => unfold splitTwoSpace
  rw [if_pos ⟨rfl, rfl⟩]

/-- Unfolding `splitTwoSpace` away from a double space, recursive result
known. -/
theorem splitTwoSpace_cons_eq (c1 c2 : Char) (rest : List Char)
    (h : ¬(c1 = ' ' ∧ c2 = ' ')) (hd : List Char) (tl : List (List Char))
    (hr : splitTwoSpace (c2 :: rest) = hd :: tl) :
    splitTwoSpace (c1 :: c2 :: rest) = (c1 :: hd) :: tl := by
  conv_lhs => unfold splitTwoSpace
  rw [if_neg h, hr]

/-- Pulling the head character out of the first joined piece. -/
theorem joinTS_cons_cons (x : Char) (h : List Char) (ps : List (List Char)) :
    joinTS ((x :: h) :: ps) = x :: joinTS (h :: ps) := by
  cases ps <;> simp [joinTS]

/-- Unfolding `joinTS` on a cons with a non-empty tail. -/
theorem joinTS_cons_of_ne (w : List Char) (ps : List (List Char)) (h : ps ≠ []) :
    joinTS (w :: ps) = w ++ ' ' :: ' ' :: joinTS ps := by
  cases ps with
  | nil => exact absurd rfl h
  | cons p ps2 => rfl

/-- Joining the pieces with two spaces recovers the line exactly. -/
theorem joinTS_splitTwoSpace : ∀ l : List Char, joinTS (splitTwoSpace l) = l := by
  intro l
  induction l using splitTwoSpace.induct with
  | case1 => rfl
  | case2 c => rfl
  | case3 c1 c2 rest hcond ih =>
    obtain ⟨h1, h2⟩ := hcond
    subst h1
    subst h2
    rw [splitTwoSpace_dbl rest,
      joinTS_cons_of_ne [] (splitTwoSpace rest) (splitTwoSpace_ne_nil rest)]
    simp [ih]
  | case4 c1 c2 rest hcond hnil ih => exact absurd hnil (splitTwoSpace_ne_nil (c2 :: rest))
  | case5 c1 c2 rest hcond hd tl hr ih =>
    rw [splitTwoSpace_cons_eq c1 c2 rest hcond hd tl hr, joinTS_cons_cons, ← hr, ih]

/- ## Facts about the no-double-space predicate -/

/-- Dropping the head preserves absence of double spaces. -/
theorem noDS_tail (c : Char) (l : List Char) (h : noDS (c :: l) = true) :
    noDS l = true := by
  cases l with
  | nil => rfl
  | cons d l2 =>
    unfold noDS at h
    by_cases hc : c = ' ' ∧ d = ' '
    · rw [if_pos hc] at h
      exact absurd h (by simp)
    · rw [if_neg hc] at h
      exact h

/-- Extending on the left away from a double space. -/
theorem noDS_cons (c d : Char) (l2 : List Char) (h : noDS (d :: l2) = true)
    (hcd : ¬(c = ' ' ∧ d = ' ')) : noDS (c :: d :: l2) = true := by
  unfold noDS
  rw [if_neg hcd]
  exact h

/-- A suffix of a double-space-free list is double-space-free. -/
theorem noDS_suffix : ∀ a b : List Char, noDS (a ++ b) = true → noDS b = true := by
  intro a
  induction a with
  | nil => exact fun b h => h
  | cons x a2 ih => exact fun b h => ih b (noDS_tail x (a2 ++ b) h)

/-- A prefix of a double-space-free list is double-space-free. -/
theorem noDS_prefix : ∀ a b : List Char, noDS (a ++ b) = true → noDS a = true := by
  intro a
  induction a with
  | nil => intro b _; rfl
  | cons x a2 ih =>
    intro b h
    cases ha2 : a2 with
    | nil => rfl
    | cons y a3 =>
      subst ha2
      have h2 : noDS (y :: a3) = true := ih b (noDS_tail x ((y :: a3) ++ b) h)
      by_cases hxy : x = ' ' ∧ y = ' '
      · exfalso
        simp only [List.cons_append] at h
        unfold noDS at h
        rw [if_pos hxy] at h
        exact absurd h (by simp)
      · exact noDS_cons x y a3 h2 hxy

/-- Every two-space-split piece is double-space-free and made of characters
of the line; moreover the first piece is a prefix of the line. -/
theorem splitTwoSpace_pieces : ∀ l : List Char,
    (∃ hd tl b, splitTwoSpace l = hd :: tl ∧ l = hd ++ b) ∧
    (∀ p ∈ splitTwoSpace l, noDS p = true ∧ ∀ c ∈ p, c ∈ l) := by
  intro l
  induction l using splitTwoSpace.induct with
  | case1 =>
    refine ⟨⟨[], [], [], rfl, rfl⟩, ?_⟩
    intro p hp
    rw [splitTwoSpace_nil] at hp
    have hpe : p = [] := List.mem_singleton.mp hp
    subst hpe
    exact ⟨rfl, by simp⟩
  | case2 c =>
    refine ⟨⟨[c], [], [], rfl, by simp⟩, ?_⟩
    intro p hp
    have hpc : p = [c] := List.mem_singleton.mp hp
    subst hpc
    refine ⟨rfl, ?_⟩
    intro x hx
    rw [List.mem_singleton.mp hx]
    exact List.mem_singleton.mpr rfl
  | case3 c1 c2 rest hcond ih =>
    obtain ⟨h1, h2⟩ := hcond
    subst h1
    subst h2
    constructor
    · exact ⟨[], splitTwoSpace rest, ' ' :: ' ' :: rest, by rw [splitTwoSpace_dbl], rfl⟩
    · intro p hp
      rw [splitTwoSpace_dbl] at hp
      rcases List.mem_cons.mp hp with hp | hp
      · subst hp
        exact ⟨rfl, by simp⟩
      · obtain ⟨hn, hchars⟩ := ih.2 p hp
        exact ⟨hn, fun c hc =>
          List.mem_cons_of_mem ' ' (List.mem_cons_of_mem ' ' (hchars c hc))⟩
  | case4 c1 c2 rest hcond hnil ih => exact absurd hnil (splitTwoSpace_ne_nil _)
  | case5 c1 c2 rest hcond hd tl hr ih =>
    have hpre : ∃ b, c2 :: rest = hd ++ b := by
      obtain ⟨hd2, tl2, b2, hs, hb⟩ := ih.1
      rw [hr] at hs
      obtain ⟨hhd, -⟩ := List.cons.inj hs
      exact ⟨b2, by rw [hhd]; exact hb⟩
    constructor
    · obtain ⟨b, hb⟩ := hpre
      exact ⟨c1 :: hd, tl, b, splitTwoSpace_cons_eq c1 c2 rest hcond hd tl hr,
        by rw [List.cons_append, ← hb]⟩
    · intro p hp
      rw [splitTwoSpace_cons_eq c1 c2 rest hcond hd tl hr] at hp
      rcases List.mem_cons.mp hp with hp | hp
      · have hdmem : hd ∈ splitTwoSpace (c2 :: rest) := by
          rw [hr]
          exact List.mem_cons_self hd tl
        obtain ⟨hnds, hchars⟩ := ih.2 hd hdmem
        subst hp
        constructor
        · obtain ⟨b, hb⟩ := hpre
          cases hhd : hd with
          | nil => rfl
          | cons x hd2 =>
            subst hhd
            have hx : c2 = x := by
              rw [List.cons_append] at hb
              exact (List.cons.inj hb).1
            subst hx
            exact noDS_cons c1 c2 hd2 hnds hcond
        · intro c hc
          rcases List.mem_cons.mp hc with hc | hc
          · rw [hc]
            exact List.mem_cons_self c1 (c2 :: rest)
          · exact List.mem_cons_of_mem c1 (hchars c hc)
      · obtain ⟨hn, hchars⟩ := ih.2 p (by rw [hr]; exact List.mem_cons_of_mem hd hp)
        exact ⟨hn, fun c hc => List.mem_cons_of_mem c1 (hchars c hc)⟩

/-- Tokens of two-space-joined pieces are the concatenated tokens of the
pieces. -/
theorem wordsWS_joinTS : ∀ ps : List (List Char),
    wordsWS (joinTS ps) = ps.flatMap wordsWS := by
  intro ps
  induction ps with
  | nil => rfl
  | cons p ps2 ih =>
    cases hps : ps2 with
    | nil =>
      subst hps
      simp [joinTS]
    | cons q ps3 =>
      subst hps
      rw [joinTS_cons_of_ne p (q :: ps3) (by simp),
        wordsWS_append_ws ' ' (by decide) p (' ' :: joinTS (q :: ps3)),
        wordsWS_ws_cons ' ' (by decide), ih]
      simp

/-- The tokens of a line are the concatenated tokens of its two-space split
pieces. -/
theorem wordsWS_splitTwoSpace (l : List Char) :
    (splitTwoSpace l).flatMap wordsWS = wordsWS l := by
  conv_rhs => rw [← joinTS_splitTwoSpace l]
  rw [wordsWS_joinTS]

/- ## Facts about `pyStrip` -/

/-- The head of a whitespace-stripped-from-the-left list is not whitespace. -/
theorem head_dropWhile_nws : ∀ (l : List Char) (x : Char),
    (l.dropWhile pyWS).head? = some x → pyWS x = false := by
  intro l
  induction l with
  | nil => intro x hx; simp at hx
  | cons c rest ih =>
    intro x hx
    cases hc : pyWS c with
    | true =>
      rw [List.dropWhile_cons] at hx
      simp only [hc, if_true] at hx
      exact ih x hx
    | false =>
      rw [List.dropWhile_cons] at hx
      simp only [hc, Bool.false_eq_true, if_false, List.head?_cons, Option.some.injEq] at hx
      rw [← hx]
      exact hc

/-- Stripping removes a prefix and a suffix: the stripped list sits inside
the original. -/
theorem pyStrip_decomp (l : List Char) :
    ∃ a b, l.dropWhile pyWS = pyStrip l ++ b ∧ l = a ++ (pyStrip l ++ b) := by
  obtain ⟨a, ha⟩ := List.dropWhile_suffix (l := l) pyWS
  obtain ⟨b2, hb⟩ := List.dropWhile_suffix (l := (l.dropWhile pyWS).reverse) pyWS
  have hd : l.dropWhile pyWS = pyStrip l ++ b2.reverse := by
    have h1 := congrArg List.reverse hb
    simp only [List.reverse_append, List.reverse_reverse] at h1
    unfold pyStrip
    exact h1.symm
  refine ⟨a, b2.reverse, hd, ?_⟩
  calc l = a ++ l.dropWhile pyWS := ha.symm
    _ = a ++ (pyStrip l ++ b2.reverse) := by rw [hd]

/-- Stripping preserves absence of double spaces. -/
theorem noDS_pyStrip (l : List Char) (h : noDS l = true) : noDS (pyStrip l) = true := by
  obtain ⟨a, b, -, hab⟩ := pyStrip_decomp l
  rw [hab] at h
  exact noDS_prefix _ b (noDS_suffix a _ h)

/-- Characters of the stripped list are characters of the original. -/
theorem pyStrip_chars (l : List Char) : ∀ x ∈ pyStrip l, x ∈ l := by
  obtain ⟨a, b, -, hab⟩ := pyStrip_decomp l
  intro x hx
  rw [hab]
  exact List.mem_append.mpr (Or.inr (List.mem_append.mpr (Or.inl hx)))

/-- The head of a stripped list is not whitespace. -/
theorem pyStrip_head_nws (l : List Char) :
    ∀ x, (pyStrip l).head? = some x → pyWS x = false := by
  intro x hx
  obtain ⟨a, b, hd, -⟩ := pyStrip_decomp l
  cases hps : pyStrip l with
  | nil => rw [hps] at hx; simp at hx
  | cons y r =>
    rw [hps] at hx
    simp only [List.head?_cons, Option.some.injEq] at hx
    rw [hps] at hd
    rw [← hx]
    refine head_dropWhile_nws l y ?_
    rw [hd]
    rfl

/-- The last character of a stripped list is not whitespace. -/
theorem pyStrip_last_nws (l : List Char) :
    ∀ x, (pyStrip l).getLast? = some x → pyWS x = false := by
  intro x hx
  unfold pyStrip at hx
  rw [List.getLast?_reverse] at hx
  exact head_dropWhile_nws _ x hx

/-- A text starting with a non-whitespace character has at least one token. -/
theorem wordsWS_ne_nil_of_head (y : Char) (r : List Char) (hy : pyWS y = false) :
    wordsWS (y :: r) ≠ [] := by
  obtain ⟨hd, tl, hsp⟩ := splitWS_cons_nws y r hy
  unfold wordsWS
  rw [hsp]
  simp [List.filter]

/- ## The collapsing identity for clean chunks -/

/-- A chunk whose whitespace consists of single interior spaces only (no
double space, non-whitespace boundaries, every whitespace character a
space) is recovered exactly by joining its tokens with single spaces. -/
theorem joinSpace_wordsWS_of_clean : ∀ c : List Char,
    (∀ x ∈ c, pyWS x = true → x = ' ') →
    noDS c = true →
    (∀ x, c.head? = some x → pyWS x = false) →
    (∀ x, c.getLast? = some x → pyWS x = false) →
    joinSpace (wordsWS c) = c
  | [], _, _, _, _ => rfl
  | [x], _, _, hh, _ => by
    have hx : pyWS x = false := hh x rfl
    have hsw2 : splitWS [x] = [[x]] := splitWS_cons_nws_eq x [] hx [] [] rfl
    unfold wordsWS
    rw [hsw2]
    rfl
  | x :: y :: r2, hsp, hnd, hh, hl => by
    have hx : pyWS x = false := hh x rfl
    cases hy : pyWS y with
    | false =>
      obtain ⟨hd, tl, hsw⟩ := splitWS_cons_nws y r2 hy
      have hsw2 : splitWS (x :: y :: r2) = (x :: y :: hd) :: tl :=
        splitWS_cons_nws_eq x (y :: r2) hx (y :: hd) tl hsw
      have hrec : joinSpace (wordsWS (y :: r2)) = y :: r2 :=
        joinSpace_wordsWS_of_clean (y :: r2)
          (fun z hz hw => hsp z (List.mem_cons_of_mem x hz) hw)
          (noDS_tail x (y :: r2) hnd)
          (fun z hz => by
            simp only [List.head?_cons, Option.some.injEq] at hz
            rw [← hz]
            exact hy)
          (fun z hz => hl z (by rw [List.getLast?_cons_cons]; exact hz))
      have hw1 : wordsWS (x :: y :: r2) =
          (x :: y :: hd) :: (tl.filter fun w => !w.isEmpty) := by
        unfold wordsWS
        rw [hsw2, List.filter_cons_of_pos (by simp)]
      have hw2 : wordsWS (y :: r2) = (y :: hd) :: (tl.filter fun w => !w.isEmpty) := by
        unfold wordsWS
        rw [hsw, List.filter_cons_of_pos (by simp)]
      rw [hw1, joinSpace_cons_cons x (y :: hd) (tl.filter fun w => !w.isEmpty),
        ← hw2, hrec]
    | true =>
      have hy2 : y = ' ' := hsp y (List.mem_cons_of_mem x (List.mem_cons_self y r2)) hy
      subst hy2
      cases hr2 : r2 with
      | nil =>
        exfalso
        subst hr2
        have hlast := hl ' ' (by rfl)
        simp [pyWS] at hlast
      | cons z r3 =>
        subst hr2
        have hnd2 : noDS (' ' :: z :: r3) = true := noDS_tail x _ hnd
        have hz : ¬(z = ' ') := by
          intro h
          subst h
          unfold noDS at hnd2
          rw [if_pos ⟨rfl, rfl⟩] at hnd2
          exact absurd hnd2 (by simp)
        have hzw : pyWS z = false := by
          cases hzw : pyWS z with
          | false => rfl
          | true =>
            exact absurd (hsp z (by simp) hzw) hz
        obtain ⟨hd, tl, hswz⟩ := splitWS_cons_nws z r3 hzw
        have hsw1 : splitWS (' ' :: z :: r3) = [] :: (z :: hd) :: tl := by
          rw [splitWS_cons_ws ' ' _ (by decide), hswz]
        have hsw2 : splitWS (x :: ' ' :: z :: r3) = [x] :: (z :: hd) :: tl :=
          splitWS_cons_nws_eq x (' ' :: z :: r3) hx [] ((z :: hd) :: tl) hsw1
        have hrec : joinSpace (wordsWS (z :: r3)) = z :: r3 :=
          joinSpace_wordsWS_of_clean (z :: r3)
            (fun w hw hww =>
              hsp w (List.mem_cons_of_mem x (List.mem_cons_of_mem ' ' hw)) hww)
            (noDS_tail ' ' _ hnd2)
            (fun w hw => by
              simp only [List.head?_cons, Option.some.injEq] at hw
              rw [← hw]
              exact hzw)
            (fun w hw => hl w (by
              rw [List.getLast?_cons_cons, List.getLast?_cons_cons]
              exact hw))
        have hw1 : wordsWS (x :: ' ' :: z :: r3) =
            [x] :: (z :: hd) :: (tl.filter fun w => !w.isEmpty) := by
          unfold wordsWS
          rw [hsw2, List.filter_cons_of_pos (by simp),
            List.filter_cons_of_pos (by simp)]
        have hw2 : wordsWS (z :: r3) = (z :: hd) :: (tl.filter fun w => !w.isEmpty) := by
          unfold wordsWS
          rw [hswz, List.filter_cons_of_pos (by simp)]
        rw [hw1, joinSpace_cons_of_ne [x] ((z :: hd) :: (tl.filter fun w => !w.isEmpty))
          (by simp), ← hw2, hrec]
        rfl

/- ## Assembling the pipeline -/

/-- Joining the non-empty chunks equals joining all chunk tokens, provided
each chunk is recovered from its tokens. -/
theorem joinSpace_filter_flatMap : ∀ cs : List (List Char),
    (∀ c ∈ cs, joinSpace (wordsWS c) = c) →
    (∀ c ∈ cs, (wordsWS c = [] ↔ c = [])) →
    joinSpace (cs.filter fun c => !c.isEmpty) = joinSpace (cs.flatMap wordsWS) := by
  intro cs
  induction cs with
  | nil => intro _ _; rfl
  | cons c cs2 ih =>
    intro hj hn
    have ih2 := ih (fun d hd => hj d (List.mem_cons_of_mem c hd))
      (fun d hd => hn d (List.mem_cons_of_mem c hd))
    by_cases hc : c = []
    · subst hc
      rw [List.flatMap_cons, List.filter_cons_of_neg (by simp)]
      simpa using ih2
    · have hwc : wordsWS c ≠ [] := fun h => hc ((hn c (List.mem_cons_self c cs2)).mp h)
      rw [List.filter_cons_of_pos (by simp [List.isEmpty_iff, hc]), List.flatMap_cons]
      by_cases hrest : cs2.filter (fun w => !w.isEmpty) = []
      · have hall : ∀ d ∈ cs2, d = [] := by
          intro d hd
          have h2 := List.filter_eq_nil_iff.mp hrest d hd
          simpa [List.isEmpty_iff] using h2
        have hfm : cs2.flatMap wordsWS = [] :=
          List.flatMap_eq_nil_iff.mpr fun d hd =>
            (hn d (List.mem_cons_of_mem c hd)).mpr (hall d hd)
        rw [hrest, hfm, List.append_nil]
        exact (hj c (List.mem_cons_self c cs2)).symm
      · have hfm : cs2.flatMap wordsWS ≠ [] := by
          intro hfm0
          obtain ⟨d, ds, hds⟩ := List.exists_cons_of_ne_nil hrest
          have hdmem : d ∈ cs2.filter (fun w => !w.isEmpty) := by
            rw [hds]
            exact List.mem_cons_self d ds
          have hd2 := List.mem_filter.mp hdmem
          have hdne : d ≠ [] := by simpa [List.isEmpty_iff] using hd2.2
          have hwd : wordsWS d = [] := List.flatMap_eq_nil_iff.mp hfm0 d hd2.1
          exact hdne ((hn d (List.mem_cons_of_mem c hd2.1)).mp hwd)
        rw [joinSpace_cons_of_ne c _ hrest,
          joinSpace_append (wordsWS c) (cs2.flatMap wordsWS) hwc hfm, ih2,
          hj c (List.mem_cons_self c cs2)]

/-- The chunk tokens of the pipeline are exactly the tokens of the text. -/
theorem chunks_flatMap_wordsWS (t : List Char) :
    (((splitLF t).map pyStrip).flatMap fun line => (splitTwoSpace line).map pyStrip).flatMap
        wordsWS = wordsWS t := by
  rw [List.flatMap_map, List.flatMap_assoc]
  have hperline : (fun line0 => ((splitTwoSpace (pyStrip line0)).map pyStrip).flatMap wordsWS)
      = fun line0 : List Char => wordsWS line0 := by
    funext line0
    rw [List.flatMap_map]
    have hpt : (fun p => wordsWS (pyStrip p)) = wordsWS := funext wordsWS_pyStrip
    rw [hpt, wordsWS_splitTwoSpace, wordsWS_pyStrip]
  rw [hperline, wordsWS_splitLF]

/-- For a text whose whitespace consists of spaces and newlines only, the
cleanup pipeline of lines 78-80 collapses every whitespace run into a
single space: it agrees with the spec-side `specCollapse`. -/
theorem pyCleanup_eq_specCollapse (t : List Char)
    (hws : ∀ c ∈ t, pyWS c = true → c = ' ' ∨ c = '\n') :
    pyCleanup t = specCollapse t := by
  have hchunkprop : ∀ c ∈ ((splitLF t).map pyStrip).flatMap
      (fun line => (splitTwoSpace line).map pyStrip),
      (joinSpace (wordsWS c) = c) ∧ (wordsWS c = [] ↔ c = []) := by
    intro c hc
    rw [List.mem_flatMap] at hc
    obtain ⟨line, hline, hcmem⟩ := hc
    rw [List.mem_map] at hline
    obtain ⟨line0, hline0, hlineq⟩ := hline
    rw [List.mem_map] at hcmem
    obtain ⟨p, hp, hpq⟩ := hcmem
    subst hlineq
    subst hpq
    obtain ⟨hlf_nolf, hlf_chars⟩ := splitLF_mem t line0 hline0
    obtain ⟨-, hsp_props⟩ := splitTwoSpace_pieces (pyStrip line0)
    obtain ⟨hpnoDS, hpchars⟩ := hsp_props p hp
    have hchars : ∀ x ∈ pyStrip p, x ∈ line0 := fun x hx =>
      pyStrip_chars line0 x (hpchars x (pyStrip_chars p x hx))
    have honlysp : ∀ x ∈ pyStrip p, pyWS x = true → x = ' ' := by
      intro x hx hxw
      rcases hws x (hlf_chars x (hchars x hx)) hxw with h | h
      · exact h
      · exact absurd (h ▸ hchars x hx) hlf_nolf
    have hnds : noDS (pyStrip p) = true := noDS_pyStrip p hpnoDS
    refine ⟨joinSpace_wordsWS_of_clean (pyStrip p) honlysp hnds
      (pyStrip_head_nws p) (pyStrip_last_nws p), ?_, ?_⟩
    · intro h
      by_contra hne
      obtain ⟨y, r, hyr⟩ := List.exists_cons_of_ne_nil hne
      have hy : pyWS y = false := pyStrip_head_nws p y (by rw [hyr]; rfl)
      refine wordsWS_ne_nil_of_head y r hy ?_
      rw [← hyr]
      exact h
    · intro h
      rw [h]
      rfl
  unfold pyCleanup specCollapse
  rw [joinSpace_filter_flatMap _ (fun c hc => (hchunkprop c hc).1)
    (fun c hc => (hchunkprop c hc).2), chunks_flatMap_wordsWS]

/- ## Text extraction (C6) -/

/-- Counterexample to C6 as stated: for a document whose visible text is
`"a \t b"`, the cleanup of lines 78-80 leaves the interior run `" \t "`
untouched (it only splits on newlines and double spaces), so the output is
NOT the whitespace-collapsed text `"a b"` demanded by the claim. -/
theorem c6_counterexample :
    extract_text docTab = "a \t b" ∧
    String.mk (specCollapse (textList (stripList docTab)).data) = "a b" ∧
    extract_text docTab ≠ String.mk (specCollapse (textList (stripList docTab)).data) := by
  decide

/-- C6 (amended): `extract_text` removes script and style elements entirely
— its output does not depend on their contents (erasing them changes
nothing) — and for every document whose visible text uses only spaces and
newlines as whitespace, it collapses every whitespace run (including
multiple consecutive spaces and blank lines) into a single space with
trimmed tokens, i.e. it agrees with the spec-side `specCollapse`; interior
whitespace runs containing other characters (such as a lone tab) are
preserved instead of collapsed. -/
theorem c6_text_extraction (d : List Node) :
    extract_text (eraseList d) = extract_text d ∧
    ((∀ c ∈ (textList (stripList d)).data, pyWS c = true → c = ' ' ∨ c = '\n') →
      extract_text d = String.mk (specCollapse (textList (stripList d)).data)) := by
  refine ⟨extract_text_erase d, ?_⟩
  intro hws
  unfold extract_text
  rw [pyCleanup_eq_specCollapse _ hws]

/-- Witness for the amended C6 on a document with a script element, a run
of three spaces and a blank line. -/
theorem c6_witness :
    (∀ c ∈ (textList (stripList docMix)).data, pyWS c = true → c = ' ' ∨ c = '\n') ∧
    extract_text (eraseList docMix) = extract_text docMix ∧
    extract_text docMix = String.mk (specCollapse (textList (stripList docMix)).data) ∧
    extract_text docMix = "Hello world bye" :=
  ⟨by decide, (c6_text_extraction docMix).1, (c6_text_extraction docMix).2 (by decide),
   by decide⟩

/-- Witness for C1 at a concrete run: budget 1, all fetches failing. -/
theorem c1_witness :
    (initState "s") ∈ crawlStates behFF 1 (initState "s") ∧
    (initState "s").visited.length ≤ 1 ∧
    (crawl behFF 1 "s").visited.length ≤ 1 ∧
    ((crawl behFF 1 "s").toVisit = [] ∨ (crawl behFF 1 "s").visited.length = 1) :=
  ⟨self_mem_crawlStates behFF 1 (initState "s"),
   (c1_page_limit behFF 1 "s").1 (initState "s") (self_mem_crawlStates behFF 1 (initState "s")),
   (c1_page_limit behFF 1 "s").2.1,
   (c1_page_limit behFF 1 "s").2.2⟩

/-- Witness for the amended C7 at a concrete page. -/
theorem c7_witness :
    "http://h/x" ∈ get_links "h" "http://h/" docDupLinks ∧
    (is_valid_url "h" "http://h/x" = true ∧
      ∃ a ∈ hrefsList docDupLinks, "http://h/x" = urljoin "http://h/" a) :=
  ⟨by decide, (c7_links_membership "h" "http://h/" docDupLinks "http://h/x").mp (by decide)⟩
